import Mathlib

/-!
# getCFpack: a verification development

Shallow embedding of `main.go` (the CurseForge pack downloader) and proofs
about its URL resolver, batch acquirer, directory normaliser and archive
extractor.

Conventions of the embedding

* Go `string` is Lean `String`; every byte-level operation of the program
  works on ASCII separators and decimal digits, so it is carried out on the
  character list `String.data`.
* Go `int` is `Int`; the program only formats integers, it never does
  arithmetic on them, so no wrap-around is involved.
* A Go function returning `(string, error)` returns `String × Option Error`.
* A Go run-time panic (slice bounds out of range, explicit `panic(err)`) is
  the outer `none` of an `Option`.
-/

namespace GetCFpack

/-! ## Constants of `main.go` -/

def API_URL : String := "https://api.curseforge.com"
def CDN_URL : String := "https://edge.forgecdn.net/files"
def OVERRIDES : String := "overrides"

/-- Go `error` values are represented by their message. -/
abbrev Error := String

/-! ## Go standard library: `strconv`, `strings`, slicing -/

/-- `strconv.Itoa`: the decimal representation of a Go `int`, with a leading
`-` for negative values. -/
def Itoa (i : Int) : String :=
  match i with
  | Int.ofNat n => String.mk (Nat.toDigits 10 n)
  | Int.negSucc n => String.mk ('-' :: Nat.toDigits 10 (n + 1))

/-- Go slice expression `s[:hi]`; panics (`none`) when `hi > len(s)`. -/
def sliceTo (s : String) (hi : Nat) : Option String :=
  if hi ≤ s.data.length then some (String.mk (s.data.take hi)) else none

/-- Go slice expression `s[lo:]`; panics (`none`) when `lo > len(s)`. -/
def sliceFrom (s : String) (lo : Nat) : Option String :=
  if lo ≤ s.data.length then some (String.mk (s.data.drop lo)) else none

/-- `strings.HasPrefix(s, prefix)`:
`len(s) >= len(prefix) && s[0:len(prefix)] == prefix`. -/
def HasPrefix (s pre : String) : Bool :=
  decide (pre.data.length ≤ s.data.length) && decide (s.data.take pre.data.length = pre.data)

/-- `strings.TrimPrefix(s, prefix)`: `s[len(prefix):]` when `s` has the
prefix, `s` otherwise. -/
def TrimPrefix (s pre : String) : String :=
  if HasPrefix s pre then String.mk (s.data.drop pre.data.length) else s

/-- `strings.Join(elems, sep)`. -/
def stringsJoin : List String → String → String
  | [], _ => ""
  | [a], _ => a
  | a :: b :: rest, sep => a ++ sep ++ stringsJoin (b :: rest) sep

/-! ## `File` and `File.URL` -/

/-- The Go struct `File` as decoded from the catalog JSON. -/
structure File where
  ID : Int
  DownloadURL : String
  FileName : String

/-- `func (file File) URL() string`.  The two slice expressions `id[:4]` and
`id[4:]` panic when the decimal string is shorter than four bytes. -/
def File.URL (file : File) : Option String :=
  let id := Itoa file.ID
  if file.DownloadURL = "" then do
    let first ← sliceTo id 4
    let rest ← sliceFrom id 4
    pure (stringsJoin [CDN_URL, first, TrimPrefix rest "0", file.FileName] "/")
  else
    some file.DownloadURL

/-! ## Go standard library: `path` -/

/-- Splits a byte string at every `/`; the pieces are the path elements
(empty pieces come from leading, trailing and doubled slashes). -/
def splitSlash : List Char → List (List Char)
  | [] => [[]]
  | c :: cs =>
    if c = '/' then [] :: splitSlash cs
    else
      match splitSlash cs with
      | [] => [[c]]
      | h :: t => (c :: h) :: t

/-- One step of `path.Clean` over the path elements.  `out` is the list of
elements written so far, last element first.  Empty and `.` elements are
dropped; a `..` element removes the last real element when there is one, is
dropped at the root of a rooted path, and is kept otherwise. -/
def cleanStep (rooted : Bool) (out : List (List Char)) (c : List Char) : List (List Char) :=
  if c = [] then out
  else if c = ['.'] then out
  else if c = ['.', '.'] then
    match out with
    | [] => if rooted then [] else [c]
    | top :: below => if top = ['.', '.'] then c :: top :: below else below
  else c :: out

/-- The elements of the cleaned path, first element first. -/
def cleanElems (rooted : Bool) (elems : List (List Char)) : List (List Char) :=
  (elems.foldl (cleanStep rooted) []).reverse

/-- Concatenation of path elements separated by `/`. -/
def joinSlash : List (List Char) → List Char
  | [] => []
  | [a] => a
  | a :: b :: rest => a ++ '/' :: joinSlash (b :: rest)

/-- The body of `path.Clean` on the bytes of the path. -/
def cleanChars (p : List Char) : List Char :=
  match p with
  | [] => ['.']
  | c :: _ =>
    let rooted := decide (c = '/')
    let out := joinSlash (cleanElems rooted (splitSlash p))
    if rooted then '/' :: out
    else if out = [] then ['.'] else out

/-- `path.Clean(path)`: the shortest path name equivalent to `path` by purely
lexical processing (single slashes, no `.` elements, no inner `..` elements,
no `..` elements at the start of a rooted path, `.` for the empty path). -/
def pathClean (p : String) : String := String.mk (cleanChars p.data)

/-- The buffer built by the loop of `path.Join`: an element is appended,
after a `/` when the buffer is not empty, unless both the buffer and the
element are empty. -/
def joinBuf (buf : List Char) : List String → List Char
  | [] => buf
  | e :: rest =>
    if buf ≠ [] ∨ e.data ≠ [] then
      joinBuf ((if buf ≠ [] then buf ++ ['/'] else buf) ++ e.data) rest
    else joinBuf buf rest

/-- `path.Join(elem...)`: the empty string when all elements are empty,
otherwise the cleaned `/`-separated concatenation. -/
def pathJoin (elem : List String) : String :=
  if (elem.map fun e => e.data.length).sum = 0 then ""
  else String.mk (cleanChars (joinBuf [] elem))

/-- The part of the path up to and including its last `/`
(`path[:strings.LastIndexByte(path, '/')+1]`), empty when it has none. -/
def dirPart (p : List Char) : List Char :=
  (p.reverse.dropWhile fun c => c ≠ '/').reverse

/-- `path.Dir(path)`: all but the last element of the path, cleaned. -/
def pathDir (p : String) : String := String.mk (cleanChars (dirPart p.data))

/-- `path.Base(path)`: the last element of the path, after removing trailing
slashes; `.` for the empty path and `/` for a path of slashes only. -/
def pathBase (p : String) : String :=
  if p.data = [] then "."
  else
    let stripped := (p.data.reverse.dropWhile fun c => c = '/').reverse
    let last := (stripped.reverse.takeWhile fun c => c ≠ '/').reverse
    if last = [] then "/" else String.mk last

/-! ## The filesystem

The filesystem is a tree of regular files and directories.  The working
directory of the process is the root of the tree, so a relative path and the
rooted path of the same elements name the same node. -/

/-- A node of the filesystem tree: a regular file with its bytes, or a
directory with its named entries. -/
inductive Node where
  | file (content : String)
  | dir (entries : List (String × Node))

/-- A resolved path: the names to follow from the root. -/
abbrev Path := List String

/-- Path resolution by the operating system for a process whose working
directory is the root of the tree: empty and `.` elements are skipped, `..`
moves to the parent, and the root is its own parent.  The empty path is
resolved like `.`.  The statements about `unzip` keep to destinations and
entry names without `..` elements, whose resolution does not depend on the
working directory being the root. -/
def resolve (p : String) : Path :=
  (cleanElems true (splitSlash p.data)).map String.mk

/-- The entries of a directory with the entry `name` replaced by `n`, or
with `n` added when the directory has no such entry. -/
def setEntry (name : String) (n : Node) : List (String × Node) → List (String × Node)
  | [] => [(name, n)]
  | (k, v) :: rest => if k = name then (name, n) :: rest else (k, v) :: setEntry name n rest

/-- The node of the entry `name` of a directory. -/
def getEntry (name : String) : List (String × Node) → Option Node
  | [] => none
  | (k, v) :: rest => if k = name then some v else getEntry name rest

/-- The entries of a directory without the entry `name`. -/
def eraseEntry (name : String) (es : List (String × Node)) : List (String × Node) :=
  es.filter fun e => decide (e.1 ≠ name)

/-- The node at a resolved path. -/
def Node.lookup : Path → Node → Option Node
  | [], n => some n
  | _ :: _, Node.file _ => none
  | c :: cs, Node.dir es =>
    match getEntry c es with
    | some child => Node.lookup cs child
    | none => none

/-- Applies `f` to the entries of the directory at path `p`; fails when `p`
is missing (`ENOENT`) or passes through a regular file (`ENOTDIR`). -/
def Node.atDir (f : List (String × Node) → Except Error (List (String × Node))) :
    Path → Node → Except Error Node
  | _, Node.file _ => Except.error "ENOTDIR"
  | [], Node.dir es => (f es).map Node.dir
  | c :: cs, Node.dir es =>
    match getEntry c es with
    | some child => (Node.atDir f cs child).map fun child1 => Node.dir (setEntry c child1 es)
    | none => Except.error "ENOENT"

/-- Lexicographic order of byte strings, the order of Go's `<` on strings. -/
def ltChars : List Char → List Char → Bool
  | _, [] => false
  | [], _ :: _ => true
  | a :: as, b :: bs => decide (a.toNat < b.toNat) || (decide (a = b) && ltChars as bs)

/-- Insertion of a name into a sorted list of names. -/
def insertName (x : String) : List String → List String
  | [] => [x]
  | y :: ys => if ltChars x.data y.data then x :: y :: ys else y :: insertName x ys

/-- Sorted list of names. -/
def sortNames : List String → List String
  | [] => []
  | x :: xs => insertName x (sortNames xs)

/-- `os.ReadDir(name)`: the names of the entries of the directory, sorted by
file name. -/
def osReadDir (name : String) (fs : Node) : Except Error (List String) :=
  match fs.lookup (resolve name) with
  | some (Node.dir es) => Except.ok (sortNames (es.map Prod.fst))
  | some (Node.file _) => Except.error "ENOTDIR"
  | none => Except.error "ENOENT"

/-- Removal of the entry `name` from the entries of its parent directory:
regular files and empty directories only. -/
def removeEntry (name : String) (es : List (String × Node)) :
    Except Error (List (String × Node)) :=
  match getEntry name es with
  | none => Except.error "ENOENT"
  | some (Node.file _) => Except.ok (eraseEntry name es)
  | some (Node.dir []) => Except.ok (eraseEntry name es)
  | some (Node.dir (_ :: _)) => Except.error "ENOTEMPTY"

/-- `os.Remove(name)`: removes the named file or empty directory. -/
def osRemove (name : String) (fs : Node) : Except Error Node :=
  match (resolve name).getLast? with
  | none => Except.error "EBUSY"
  | some last => Node.atDir (removeEntry last) (resolve name).dropLast fs

/-- The check of the target of a rename.  Go's `os.Rename` replaces an
existing target that is not a directory, and returns an error when the
target is a directory, empty or not; a directory cannot replace a regular
file. -/
def renameTargetCheck (src : Node) : Option Node → Except Error Unit
  | none => Except.ok ()
  | some (Node.file _) =>
    match src with
    | Node.file _ => Except.ok ()
    | Node.dir _ => Except.error "ENOTDIR"
  | some (Node.dir _) => Except.error "EEXIST"

/-- `os.Rename(oldpath, newpath)`: moves the node at `oldpath` to `newpath`
when `renameTargetCheck` allows it.  Renaming a file to itself does nothing;
a directory cannot be moved below itself. -/
def osRename (oldpath newpath : String) (fs : Node) : Except Error Node :=
  let o := resolve oldpath
  let n := resolve newpath
  match fs.lookup o, o.getLast?, n.getLast? with
  | none, _, _ => Except.error "ENOENT"
  | some _, none, _ => Except.error "EBUSY"
  | some _, some _, none => Except.error "EEXIST"
  | some src, some oname, some nname =>
    match renameTargetCheck src (fs.lookup n) with
    | Except.error e => Except.error e
    | Except.ok _ =>
      if o = n then Except.ok fs
      else if o <+: n then Except.error "EINVAL"
      else
        match Node.atDir (fun es => Except.ok (eraseEntry oname es)) o.dropLast fs with
        | Except.error e => Except.error e
        | Except.ok fs1 => Node.atDir (fun es => Except.ok (setEntry nname src es)) n.dropLast fs1

/-- `os.MkdirAll` on a resolved path: creates the directory and every missing
parent; fails when an element of the path is a regular file. -/
def Node.mkdirAll : Path → Node → Except Error Node
  | _, Node.file _ => Except.error "ENOTDIR"
  | [], Node.dir es => Except.ok (Node.dir es)
  | c :: cs, Node.dir es =>
    match getEntry c es with
    | some child => (Node.mkdirAll cs child).map fun child1 => Node.dir (setEntry c child1 es)
    | none => (Node.mkdirAll cs (Node.dir [])).map fun child1 => Node.dir (setEntry c child1 es)

/-- `os.MkdirAll(path, perm)`. -/
def osMkdirAll (name : String) (fs : Node) : Except Error Node :=
  Node.mkdirAll (resolve name) fs

/-- Creation of the regular file `name` with the bytes `content` among the
entries of its parent directory, replacing a regular file of that name. -/
def putFile (name content : String) (es : List (String × Node)) :
    Except Error (List (String × Node)) :=
  match getEntry name es with
  | some (Node.dir _) => Except.error "EISDIR"
  | _ => Except.ok (setEntry name (Node.file content) es)

/-- `os.Create(name)`: creates the named file, or truncates it when it
exists; its parent directory must exist. -/
def osCreate (name : String) (fs : Node) : Except Error Node :=
  match (resolve name).getLast? with
  | none => Except.error "EISDIR"
  | some last => Node.atDir (putFile last "") (resolve name).dropLast fs

/-- The write of `content` into the file opened by `os.Create(name)`. -/
def osWrite (name content : String) (fs : Node) : Except Error Node :=
  match (resolve name).getLast? with
  | none => Except.error "EISDIR"
  | some last => Node.atDir (putFile last content) (resolve name).dropLast fs

/-- The state after a call whose error result the program discards: the new
state on success, the old state on failure. -/
def ignoreErr (r : Except Error Node) (fs : Node) : Node :=
  match r with
  | Except.ok fs1 => fs1
  | Except.error _ => fs

/-! ## `main`: the clean-up of the pack structure (lines 113-136) -/

/-- First loop: `os.Remove` of every top-level entry not named `overrides`;
the result of `os.Remove` is discarded. -/
def removeOthers (packDir : String) (entries : List String) (fs : Node) : Node :=
  entries.foldl
    (fun fs entry =>
      if entry ≠ OVERRIDES then ignoreErr (osRemove (pathJoin [packDir, entry]) fs) fs else fs)
    fs

/-- Second loop: `os.Rename` of every entry of the overrides folder into the
pack directory; the result of `os.Rename` is discarded. -/
def promoteOverrides (packDir : String) (entries : List String) (fs : Node) : Node :=
  entries.foldl
    (fun fs entry =>
      ignoreErr
        (osRename (pathJoin [packDir, OVERRIDES, entry]) (pathJoin [packDir, entry]) fs) fs)
    fs

/-- The clean-up step of `main`.  `none` is the `panic(err)` taken when the
pack directory cannot be listed. -/
def cleanUp (packDir : String) (fs : Node) : Option Node :=
  match osReadDir packDir fs with
  | Except.error _ => none
  | Except.ok entries =>
    let fs1 := removeOthers packDir entries fs
    let fs2 :=
      match osReadDir (pathJoin [packDir, OVERRIDES]) fs1 with
      | Except.ok entries2 => promoteOverrides packDir entries2 fs1
      | Except.error _ => fs1
    some (ignoreErr (osRemove (pathJoin [packDir, OVERRIDES]) fs2) fs2)

/-! ## The catalog client: `getProjectURL`, `getFileURL` -/

/-- The HTTP client `Ctx`, seen through the two requests the program sends:
`Get(url)` decoded into `struct { Data []File }` and `Get(url)` decoded into
`struct { File File }`.  `Except.error` is the `err != nil` result of `Get`. -/
structure Ctx where
  getList : String → Except Error (List File)
  getOne : String → Except Error File

/-- `func (ctx Ctx) getProjectURL(projectID string) (string, error)`. -/
def Ctx.getProjectURL (ctx : Ctx) (projectID : String) : Option (String × Option Error) :=
  match ctx.getList (API_URL ++ "/v1/mods/" ++ projectID ++ "/files") with
  | Except.error err => some ("", some err)
  | Except.ok data =>
    if data.length < 1 then some ("", some "no data returned")
    else
      match data[0]? with
      | none => none
      | some first => (File.URL first).map fun url => (url, none)

/-- `func (ctx Ctx) getFileURL(projectID, fileID string) (string, error)`. -/
def Ctx.getFileURL (ctx : Ctx) (projectID fileID : String) : Option (String × Option Error) :=
  match ctx.getOne (API_URL ++ "/v1/mods/" ++ projectID ++ "/files/" ++ fileID) with
  | Except.error err => some ("", some err)
  | Except.ok file => (File.URL file).map fun url => (url, none)

/-! ## `main`: the mod download loop (lines 139-155) -/

/-- An element of `Manifest.Files`. -/
structure ModRef where
  ProjectID : Int
  FileID : Int

/-- What the loop leaves behind: the `failures` slice and the calls of
`downloadFileTo` it made, as `(url, path)` pairs. -/
structure Batch where
  failures : List String
  downloads : List (String × String)

/-- The loop `for _, mod := range manifest.Files`, from iteration `i` on.
`getFileURL i` and `downloadFileTo i` are the calls of iteration `i`; a
panicking `getFileURL` (`none`) ends the program.  The result of
`downloadFileTo` is discarded by the program. -/
def modLoop (getFileURL : Nat → String → String → Option (String × Option Error))
    (downloadFileTo : Nat → String → String → Option Error) (modDir : String) :
    Nat → List ModRef → Batch → Option Batch
  | _, [], acc => some acc
  | i, mod :: rest, acc =>
    match getFileURL i (Itoa mod.ProjectID) (Itoa mod.FileID) with
    | none => none
    | some (url, err) =>
      if err ≠ none ∨ url = "" then
        modLoop getFileURL downloadFileTo modDir (i + 1) rest
          { acc with failures := acc.failures ++ [Itoa mod.ProjectID ++ "/" ++ Itoa mod.FileID] }
      else
        let path := pathJoin [modDir, pathBase url]
        let _ := downloadFileTo i url path
        modLoop getFileURL downloadFileTo modDir (i + 1) rest
          { acc with downloads := acc.downloads ++ [(url, path)] }

/-- The mod download of `main`: `failures := []string{}`, then the loop. -/
def downloadMods (getFileURL : Nat → String → String → Option (String × Option Error))
    (downloadFileTo : Nat → String → String → Option Error) (packDir : String)
    (files : List ModRef) : Option Batch :=
  modLoop getFileURL downloadFileTo (pathJoin [packDir, "mods"]) 0 files ⟨[], []⟩

/-! ## `unzip` -/

/-- An entry `*zip.File` of the archive: its name, `Mode().IsDir()`, and the
bytes a reader opened on it delivers. -/
structure ZipFile where
  Name : String
  IsDir : Bool
  Data : String

/-- The operations `unzip` performs on its environment, over a state `σ`.
Each returns the error of the call (`none` for `nil`) and the new state. -/
structure Sys (σ : Type) where
  OpenReader : String → σ → Except Error (List ZipFile) × σ
  Open : ZipFile → σ → Option Error × σ
  MkdirAll : String → σ → Option Error × σ
  Create : String → σ → Option Error × σ
  ReadFrom : String → ZipFile → σ → Option Error × σ

/-- The loop `for _, file := range read.File` of `unzip`.  The results of
`os.MkdirAll` and of `create.ReadFrom` are discarded by the program. -/
def unzipLoop {σ : Type} (sys : Sys σ) (dest : String) :
    List ZipFile → σ → Option Error × σ
  | [], s => (none, s)
  | file :: rest, s =>
    if file.IsDir then unzipLoop sys dest rest s
    else
      match sys.Open file s with
      | (some err, s1) => (some err, s1)
      | (none, s1) =>
        let name := pathJoin [dest, file.Name]
        let s2 := (sys.MkdirAll (pathDir name) s1).2
        match sys.Create name s2 with
        | (some err, s3) => (some err, s3)
        | (none, s3) =>
          let s4 := (sys.ReadFrom name file s3).2
          unzipLoop sys dest rest s4

/-- `func unzip(source, dest string) error`. -/
def unzip {σ : Type} (sys : Sys σ) (source dest : String) (s : σ) : Option Error × σ :=
  match sys.OpenReader source s with
  | (Except.error err, s1) => (some err, s1)
  | (Except.ok files, s1) => unzipLoop sys dest files s1

/-- The error of a filesystem call together with the state it leaves: the
old state when the call fails. -/
def runFs (r : Except Error Node) (fs : Node) : Option Error × Node :=
  match r with
  | Except.ok fs1 => (none, fs1)
  | Except.error e => (some e, fs)

/-- The environment of `unzip` on the filesystem tree; `archives source` is
the archive `zip.OpenReader(source)` reads.  Opening an entry and copying
its bytes succeed. -/
def fsSys (archives : String → Except Error (List ZipFile)) : Sys Node where
  OpenReader := fun source fs => (archives source, fs)
  Open := fun _ fs => (none, fs)
  MkdirAll := fun name fs => runFs (osMkdirAll name fs) fs
  Create := fun name fs => runFs (osCreate name fs) fs
  ReadFrom := fun name file fs => runFs (osWrite name file.Data fs) fs

/-- The environment of `unzip` in which every operation may fail: `fails op
arg` tells whether the operation `op` on `arg` fails, and the state is the
log of the operations performed. -/
def logSys (archive : List ZipFile) (fails : String → String → Bool) : Sys (List String) where
  OpenReader := fun source log =>
    (if fails "OpenReader" source then Except.error "OpenReader" else Except.ok archive,
      log ++ ["OpenReader " ++ source])
  Open := fun file log =>
    (if fails "Open" file.Name then some "Open" else none, log ++ ["Open " ++ file.Name])
  MkdirAll := fun name log =>
    (if fails "MkdirAll" name then some "MkdirAll" else none, log ++ ["MkdirAll " ++ name])
  Create := fun name log =>
    (if fails "Create" name then some "Create" else none, log ++ ["Create " ++ name])
  ReadFrom := fun name file log =>
    (if fails "ReadFrom" file.Name then some "ReadFrom" else none,
      log ++ ["ReadFrom " ++ file.Name ++ " -> " ++ name])

/-! ## Vocabulary of the statements -/

/-- Whether an outcome `(url, err)` of `getFileURL` sends the reference to
the failure list: `err != nil || url == ""`. -/
def unresolved (o : String × Option Error) : Bool :=
  o.2.isSome || decide (o.1 = "")

/-- The token `fmt.Sprintf("%d/%d", mod.ProjectID, mod.FileID)`. -/
def token (m : ModRef) : String :=
  Itoa m.ProjectID ++ "/" ++ Itoa m.FileID

/-- The tokens, in manifest order, of the references whose outcome is an
error or an empty URL, when the first reference is resolved by call `i`. -/
def expectedFailures (out : Nat → String × Option Error) : Nat → List ModRef → List String
  | _, [] => []
  | i, m :: rest =>
    if unresolved (out i) then token m :: expectedFailures out (i + 1) rest
    else expectedFailures out (i + 1) rest

/-- The resolved path of the file `unzip` writes for the archive entry
`e`: `path.Join(dest, e.Name)`. -/
def destPath (dest : String) (e : ZipFile) : Path :=
  resolve (pathJoin [dest, e.Name])

/-- An archive of two entries with distinct relative names that are written
to the same file. -/
def overlappingArchive : List ZipFile :=
  [⟨"a", false, "1"⟩, ⟨"./a", false, "2"⟩]

/-- An archive with nested files and no directory entry for their
directories, and a directory entry of its own. -/
def nestedArchive : List ZipFile :=
  [⟨"a/b/c.txt", false, "hello"⟩, ⟨"d/", true, ""⟩, ⟨"a/x", false, "yo"⟩]

/-- A pack directory `pack` in which the top-level directory `config` is not
empty and the overrides folder has an entry `config` as well. -/
def collidingPack : Node :=
  Node.dir [("pack", Node.dir [
    ("config", Node.dir [("a.txt", Node.file "old")]),
    ("manifest.json", Node.file "{}"),
    ("overrides", Node.dir [("config", Node.dir [("b.txt", Node.file "new")])])])]

/-- A pack directory `pack` without overrides folder, holding one regular
file. -/
def normalizedPack : Node :=
  Node.dir [("pack", Node.dir [("options.txt", Node.file "fov:90")])]

/-- An archive of two regular files. -/
def twoFiles : List ZipFile :=
  [⟨"a.txt", false, "1"⟩, ⟨"b.txt", false, "2"⟩]

/-- The environment behaviour in which copying the bytes of `a.txt` fails
and every other operation succeeds. -/
def copyFails (op arg : String) : Bool :=
  op == "ReadFrom" && arg == "a.txt"

/-- The environment behaviour in which creating the directory `out` fails
and every other operation succeeds. -/
def mkdirFails (op arg : String) : Bool :=
  op == "MkdirAll" && arg == "out"

/-- A name a directory entry can have: not empty, without `/`, and neither
`.` nor `..`. -/
def isFileName (x : String) : Prop :=
  x.data ≠ [] ∧ '/' ∉ x.data ∧ x.data ≠ ['.'] ∧ x.data ≠ ['.', '.']

instance (x : String) : Decidable (isFileName x) := by
  unfold isFileName
  infer_instance

/-- What `os.Remove` can delete: a regular file or an empty directory. -/
def removable : Node → Bool
  | Node.file _ => true
  | Node.dir [] => true
  | Node.dir (_ :: _) => false

/-- The tree with the entries of the directory at path `p` replaced by
`es1`; the tree itself when `p` is not a directory of it. -/
def Node.withEntries : Path → List (String × Node) → Node → Node
  | _, _, Node.file content => Node.file content
  | [], es1, Node.dir _ => Node.dir es1
  | c :: cs, es1, Node.dir es =>
    match getEntry c es with
    | some child => Node.dir (setEntry c (Node.withEntries cs es1 child) es)
    | none => Node.dir es

/-- A path element that `path.Clean` copies: not empty, not `.`, not `..`. -/
def normalElem (c : List Char) : Prop :=
  c ≠ [] ∧ c ≠ ['.'] ∧ c ≠ ['.', '.']

instance (c : List Char) : Decidable (normalElem c) := by
  unfold normalElem
  infer_instance

/-- An entry name that is relative, has no `..` element, and has an element
other than `.`: the name of a file below the destination. -/
def safeName (name : String) : Prop :=
  name.data.head? ≠ some '/' ∧ ['.', '.'] ∉ splitSlash name.data ∧
    ∃ c ∈ splitSlash name.data, normalElem c

instance (name : String) : Decidable (safeName name) := by
  unfold safeName
  infer_instance

/-- Whether the directory at path `p` is missing or empty, with no regular
file on the way to it. -/
def destEmpty : Path → Node → Bool
  | _, Node.file _ => false
  | [], Node.dir es => es.isEmpty
  | c :: cs, Node.dir es =>
    match getEntry c es with
    | none => true
    | some child => destEmpty cs child

/-- An initially empty destination: `dest` has no `..` element, and the
directory it names is missing or empty. -/
def destReady (dest : String) (fs : Node) : Prop :=
  ['.', '.'] ∉ splitSlash dest.data ∧ destEmpty (resolve dest) fs = true

instance (dest : String) (fs : Node) : Decidable (destReady dest fs) := by
  unfold destReady
  infer_instance

/-- Two paths neither of which is an initial segment of the other (in
particular, two different paths). -/
def apart (p q : Path) : Prop :=
  ¬ p <+: q ∧ ¬ q <+: p

instance (p q : Path) : Decidable (apart p q) := by
  unfold apart
  infer_instance

/-- The effect on the entries of a directory of one iteration of the first
loop of the clean-up. -/
def removeStep (es : List (String × Node)) (entry : String) : List (String × Node) :=
  if entry ≠ OVERRIDES then
    match removeEntry entry es with
    | Except.ok es1 => es1
    | Except.error _ => es
  else es

/-! # Theorems -/

/-! ## Decimal strings -/

/-- With enough fuel, the digits of a number with at least `k + 1` decimal
places extend the accumulator by at least `k + 1` characters. -/
theorem toDigitsCore_length_ge (fuel : Nat) :
    ∀ (k n : Nat) (acc : List Char), n < fuel → 10 ^ k ≤ n →
      k + 1 + acc.length ≤ (Nat.toDigitsCore 10 fuel n acc).length := by
  induction fuel with
  | zero => intro k n acc h; omega
  | succ fuel ih =>
    intro k n acc hn hk
    rw [Nat.toDigitsCore]
    by_cases h10 : n / 10 = 0
    · simp only [h10, if_true]
      have hlt : n < 10 := by omega
      cases k with
      | zero => simp; omega
      | succ k =>
        have : 10 ≤ 10 ^ (k + 1) := by
          calc 10 = 10 ^ 1 := by norm_num
            _ ≤ 10 ^ (k + 1) := Nat.pow_le_pow_right (by norm_num) (by omega)
        omega
    · simp only [h10, if_false]
      cases k with
      | zero =>
        have := ih 0 (n / 10) (Nat.digitChar (n % 10) :: acc) (by omega) (by simp; omega)
        simp only [List.length_cons] at this
        omega
      | succ k =>
        have hk2 : 10 ^ k ≤ n / 10 := by
          rw [Nat.le_div_iff_mul_le (by norm_num)]
          rw [Nat.pow_succ] at hk
          exact hk
        have := ih k (n / 10) (Nat.digitChar (n % 10) :: acc) (by omega) hk2
        simp only [List.length_cons] at this
        omega

/-- The decimal string of an `int` that is at least 1000 has at least four
bytes. -/
theorem Itoa_length_ge_four (n : Int) (hn : 1000 ≤ n) : 4 ≤ (Itoa n).data.length := by
  cases n with
  | ofNat m =>
    have hm : 1000 ≤ m := by
      have h : ((1000 : Nat) : Int) ≤ (m : Int) := hn
      exact_mod_cast h
    have := toDigitsCore_length_ge (m + 1) 3 m [] (by omega) (by norm_num; exact hm)
    simpa [Itoa, Nat.toDigits] using this
  | negSucc m =>
    have := Int.negSucc_lt_zero m
    omega

/-! ## `File.URL` -/

/-- `strings.TrimPrefix(s, "0")` removes one leading `0` byte and nothing
else. -/
theorem TrimPrefix_zero (rest : List Char) :
    TrimPrefix (String.mk rest) "0" =
      String.mk (match rest with
        | '0' :: t => t
        | r => r) := by
  cases rest with
  | nil => rfl
  | cons c t =>
    by_cases hc : c = '0'
    · subst hc
      simp [TrimPrefix, HasPrefix]
    · have h1 : ¬ ([c] = ['0']) := by simpa using hc
      simp only [TrimPrefix, HasPrefix]
      split
      · next h => simp at h; exact absurd h hc
      · split
        · next heq => simp at heq; exact absurd heq.1 hc
        · rfl

/-- The fallback branch of `File.URL` on a decimal string of at least four
bytes. -/
theorem URL_fallback (n : Int) (f : String) (h4 : 4 ≤ (Itoa n).data.length) :
    File.URL ⟨n, "", f⟩ =
      some ("https://edge.forgecdn.net/files" ++ "/" ++ String.mk ((Itoa n).data.take 4) ++ "/" ++
        String.mk (match (Itoa n).data.drop 4 with
          | '0' :: t => t
          | r => r) ++ "/" ++ f) := by
  simp only [File.URL, sliceTo, sliceFrom, h4, if_true, Option.bind_eq_bind, Option.some_bind,
    Option.pure_def, stringsJoin, TrimPrefix_zero, CDN_URL, String.append_assoc]

/-- The character of a decimal digit is a digit. -/
theorem digitChar_isDigit (m : Nat) (hm : m < 10) : (Nat.digitChar m).isDigit = true := by
  have table : ∀ k : Fin 10, (Nat.digitChar k.val).isDigit = true := by decide
  exact table ⟨m, hm⟩

/-- The decimal conversion puts digits only in front of the accumulator. -/
theorem toDigitsCore_isDigit (fuel : Nat) :
    ∀ (n : Nat) (acc : List Char), (∀ c ∈ acc, c.isDigit = true) →
      ∀ c ∈ Nat.toDigitsCore 10 fuel n acc, c.isDigit = true := by
  induction fuel with
  | zero => intro n acc hacc; simpa [Nat.toDigitsCore] using hacc
  | succ fuel ih =>
    intro n acc hacc
    have hcons : ∀ c ∈ Nat.digitChar (n % 10) :: acc, c.isDigit = true := by
      intro c hc
      rcases List.mem_cons.mp hc with h | h
      · subst h
        exact digitChar_isDigit _ (Nat.mod_lt _ (by norm_num))
      · exact hacc c h
    rw [Nat.toDigitsCore]
    by_cases h10 : n / 10 = 0
    · simpa only [h10, if_true] using hcons
    · simpa only [h10, if_false] using ih (n / 10) _ hcons

/-- C1: for a File with an empty DownloadURL and an ID `n ≥ 1000`, the
decimal string of `n` has at least four bytes, all of them digits, and
`File.URL()` is `https://edge.forgecdn.net/files`, `/`, the first four
digits, `/`, the remaining digits with one leading `0` removed when there is
one (and not more than one), `/`, the file name. -/
theorem URL_fallback_segments (n : Int) (f : String) (hn : 1000 ≤ n) :
    4 ≤ (Itoa n).data.length ∧
    (∀ c ∈ (Itoa n).data, c.isDigit = true) ∧
    File.URL ⟨n, "", f⟩ =
      some ("https://edge.forgecdn.net/files" ++ "/" ++ String.mk ((Itoa n).data.take 4) ++ "/" ++
        String.mk (match (Itoa n).data.drop 4 with
          | '0' :: t => t
          | r => r) ++ "/" ++ f) := by
  have h4 := Itoa_length_ge_four n hn
  refine ⟨h4, ?_, URL_fallback n f h4⟩
  cases n with
  | ofNat m =>
    intro c hc
    exact toDigitsCore_isDigit (m + 1) m [] (by simp) c (by simpa [Itoa, Nat.toDigits] using hc)
  | negSucc m =>
    have := Int.negSucc_lt_zero m
    omega

/-- Witness of C1: the two examples of the specification, ids 123456 and
1230045, and id 12340045, where only the first of two leading zeros is
removed. -/
theorem URL_fallback_segments_witness :
    (1000 : Int) ≤ 123456 ∧ (1000 : Int) ≤ 1230045 ∧ (1000 : Int) ≤ 12340045 ∧
    File.URL ⟨123456, "", "mod.jar"⟩ =
      some "https://edge.forgecdn.net/files/1234/56/mod.jar" ∧
    File.URL ⟨1230045, "", "mod.jar"⟩ =
      some "https://edge.forgecdn.net/files/1230/45/mod.jar" ∧
    File.URL ⟨12340045, "", "mod.jar"⟩ =
      some "https://edge.forgecdn.net/files/1234/045/mod.jar" :=
  ⟨by decide, by decide, by decide,
    (URL_fallback_segments 123456 "mod.jar" (by decide)).2.2.trans (by decide),
    (URL_fallback_segments 1230045 "mod.jar" (by decide)).2.2.trans (by decide),
    (URL_fallback_segments 12340045 "mod.jar" (by decide)).2.2.trans (by decide)⟩

/-- C5: a File whose DownloadURL is not empty has that DownloadURL as its
`URL()`, whatever its ID and FileName. -/
theorem URL_explicit (file : File) (h : file.DownloadURL ≠ "") :
    File.URL file = some file.DownloadURL := by
  simp [File.URL, h]

/-- Witness of C5: an ID of one digit and an explicit URL. -/
theorem URL_explicit_witness :
    ("https://example.org/a.jar" : String) ≠ "" ∧
    File.URL ⟨7, "https://example.org/a.jar", "a.jar"⟩ = some "https://example.org/a.jar" :=
  ⟨by decide, URL_explicit ⟨7, "https://example.org/a.jar", "a.jar"⟩ (by decide)⟩

/-- C6: on the zero value of `File` (what the JSON decoder leaves when the
response carries no `data`), and on the three-digit ID 999, the slice
expression `id[:4]` is out of range and `File.URL()` panics instead of
yielding a URL. -/
theorem URL_short_id_panics :
    File.URL ⟨0, "", ""⟩ = none ∧ File.URL ⟨999, "", "mod.jar"⟩ = none ∧
    File.URL ⟨-7, "", "mod.jar"⟩ = none := by
  decide

/-- C3: on a successful response to the list-files request, `getProjectURL`
returns an error exactly when the data list is empty, and for a non-empty
list its outcome is the outcome of `URL()` on the first entry, with a nil
error, whatever the later entries are. -/
theorem getProjectURL_first (ctx : Ctx) (projectID : String) (data : List File)
    (hresp : ctx.getList (API_URL ++ "/v1/mods/" ++ projectID ++ "/files") = Except.ok data) :
    ((∃ s e, ctx.getProjectURL projectID = some (s, some e)) ↔ data = []) ∧
    (∀ first rest, data = first :: rest →
      ctx.getProjectURL projectID = (File.URL first).map fun url => (url, none)) := by
  cases data with
  | nil =>
    refine ⟨⟨fun _ => rfl, fun _ => ⟨"", "no data returned", ?_⟩⟩, ?_⟩
    · simp [Ctx.getProjectURL, hresp]
    · intro first rest h
      cases h
  | cons first rest =>
    have hrun : ctx.getProjectURL projectID = (File.URL first).map fun url => (url, none) := by
      simp [Ctx.getProjectURL, hresp]
    refine ⟨⟨?_, fun h => by cases h⟩, ?_⟩
    · rintro ⟨s, e, h⟩
      rw [hrun] at h
      cases hu : File.URL first with
      | none => rw [hu] at h; cases h
      | some u => rw [hu] at h; cases h
    · intro f r h
      cases h
      exact hrun

/-- Witness of C3: a response of two files, the first with an explicit
URL; the URL of the first is returned. -/
theorem getProjectURL_first_witness :
    Ctx.getProjectURL ⟨fun _ => Except.ok [⟨1, "u1", "a"⟩, ⟨2, "u2", "b"⟩],
      fun _ => Except.error "unused"⟩ "42" = some ("u1", none) :=
  ((getProjectURL_first ⟨fun _ => Except.ok [⟨1, "u1", "a"⟩, ⟨2, "u2", "b"⟩],
    fun _ => Except.error "unused"⟩ "42" [⟨1, "u1", "a"⟩, ⟨2, "u2", "b"⟩] rfl).2
      ⟨1, "u1", "a"⟩ [⟨2, "u2", "b"⟩] rfl).trans (by decide)

/-- C4, as stated, fails: on a successful get-one-file response whose file
has an empty downloadURL, `getFileURL` returns the CDN fallback URL, not the
empty string. -/
theorem getFileURL_empty_downloadURL_counterexample :
    Ctx.getFileURL ⟨fun _ => Except.error "unused",
        fun _ => Except.ok ⟨123456, "", "mod.jar"⟩⟩ "42" "123456" =
      some ("https://edge.forgecdn.net/files/1234/56/mod.jar", none) ∧
    ¬ (Ctx.getFileURL ⟨fun _ => Except.error "unused",
        fun _ => Except.ok ⟨123456, "", "mod.jar"⟩⟩ "42" "123456" = some ("", none)) := by
  decide

/-- C4, amended: on a successful get-one-file response whose file has an
empty downloadURL and an ID of at least 1000, `getFileURL` returns, with a
nil error, the URL that `File.URL()` builds by the CDN fallback rule; that
URL is not the empty string. -/
theorem getFileURL_applies_fallback (ctx : Ctx) (projectID fileID : String) (file : File)
    (hresp : ctx.getOne (API_URL ++ "/v1/mods/" ++ projectID ++ "/files/" ++ fileID) =
      Except.ok file)
    (hempty : file.DownloadURL = "") (hid : 1000 ≤ file.ID) :
    ∃ url, File.URL file = some url ∧ ctx.getFileURL projectID fileID = some (url, none) ∧
      url ≠ "" ∧
      url = "https://edge.forgecdn.net/files" ++ "/" ++ String.mk ((Itoa file.ID).data.take 4) ++
        "/" ++ String.mk (match (Itoa file.ID).data.drop 4 with
          | '0' :: t => t
          | r => r) ++ "/" ++ file.FileName := by
  obtain ⟨n, d, f⟩ := file
  simp only at hempty hid
  subst hempty
  have hurl := URL_fallback n f (Itoa_length_ge_four n hid)
  refine ⟨_, hurl, ?_, ?_, rfl⟩
  · simp [Ctx.getFileURL, hresp, hurl]
  · intro h
    have := congrArg String.length h
    simp [String.length_append] at this
    exact absurd this.1.2 (by decide)

/-- Witness of C4 amended: file 123456 without downloadURL. -/
theorem getFileURL_applies_fallback_witness :
    ∃ url, File.URL ⟨123456, "", "mod.jar"⟩ = some url ∧
      Ctx.getFileURL ⟨fun _ => Except.error "unused",
        fun _ => Except.ok ⟨123456, "", "mod.jar"⟩⟩ "42" "123456" = some (url, none) ∧
      url ≠ "" ∧
      url = "https://edge.forgecdn.net/files" ++ "/" ++
        String.mk ((Itoa 123456).data.take 4) ++
        "/" ++ String.mk (match (Itoa 123456).data.drop 4 with
          | '0' :: t => t
          | r => r) ++ "/" ++ "mod.jar" :=
  getFileURL_applies_fallback ⟨fun _ => Except.error "unused",
    fun _ => Except.ok ⟨123456, "", "mod.jar"⟩⟩ "42" "123456" ⟨123456, "", "mod.jar"⟩
    rfl rfl (by decide)

/-! ## The mod download loop -/

/-- The loop, from any iteration and any accumulated state, appends to the
failure list exactly the tokens of the unresolved references. -/
theorem modLoop_failures
    (getFileURL : Nat → String → String → Option (String × Option Error))
    (downloadFileTo : Nat → String → String → Option Error) (modDir : String)
    (out : Nat → String × Option Error) :
    ∀ (files : List ModRef) (i : Nat) (acc : Batch),
      (∀ j m, files[j]? = some m →
        getFileURL (i + j) (Itoa m.ProjectID) (Itoa m.FileID) = some (out (i + j))) →
      ∃ b, modLoop getFileURL downloadFileTo modDir i files acc = some b ∧
        b.failures = acc.failures ++ expectedFailures out i files := by
  intro files
  induction files with
  | nil => intro i acc _; exact ⟨acc, rfl, by simp [expectedFailures]⟩
  | cons m rest ih =>
    intro i acc hout
    have h0 := hout 0 m (by simp)
    simp only [Nat.add_zero] at h0
    have hrest : ∀ j m1, rest[j]? = some m1 →
        getFileURL (i + 1 + j) (Itoa m1.ProjectID) (Itoa m1.FileID) = some (out (i + 1 + j)) := by
      intro j m1 hj
      have := hout (j + 1) m1 (by simpa using hj)
      have e : i + (j + 1) = i + 1 + j := by omega
      rwa [e] at this
    rcases hres : out i with ⟨url, err⟩
    rw [hres] at h0
    by_cases hfail : err ≠ none ∨ url = ""
    · obtain ⟨b, hb, hf⟩ := ih (i + 1)
        { acc with failures := acc.failures ++ [Itoa m.ProjectID ++ "/" ++ Itoa m.FileID] } hrest
      refine ⟨b, ?_, ?_⟩
      · simp only [modLoop, h0, hfail, if_true]
        exact hb
      · have hu : unresolved (url, err) = true := by
          rcases hfail with h | h
          · cases err with
            | none => exact absurd rfl h
            | some e => simp [unresolved]
          · simp [unresolved, h]
        simp only [hf, expectedFailures, hres, hu, if_true, token, List.append_assoc,
          List.singleton_append]
    · obtain ⟨b, hb, hf⟩ := ih (i + 1)
        { acc with downloads := acc.downloads ++ [(url, pathJoin [modDir, pathBase url])] } hrest
      refine ⟨b, ?_, ?_⟩
      · simp only [modLoop, h0, hfail, if_false]
        exact hb
      · have hu : unresolved (url, err) = false := by
          push_neg at hfail
          simp [unresolved, hfail.1, hfail.2]
        simp only [hf, expectedFailures, hres, hu]
        simp

/-- The recursive description of the expected failure list is the filter of
the numbered manifest. -/
theorem expectedFailures_eq_filter (out : Nat → String × Option Error) :
    ∀ (files : List ModRef) (i : Nat),
      expectedFailures out i files =
        (((files.enumFrom i).filter fun im => unresolved (out im.1)).map fun im =>
          Itoa im.2.ProjectID ++ "/" ++ Itoa im.2.FileID) := by
  intro files
  induction files with
  | nil => intro i; rfl
  | cons m rest ih =>
    intro i
    by_cases hu : unresolved (out i) = true
    · simp [expectedFailures, List.enumFrom_cons, List.filter_cons, hu, ih, token]
    · simp [expectedFailures, List.enumFrom_cons, List.filter_cons, hu, ih]

/-- C2: whatever each call of `getFileURL` returns (an error, an empty URL
or a URL) and whatever each download does, the mod download loop ends, and
its failure list is made of the tokens `ProjectID/FileID`, in manifest
order, of exactly the references whose call returned an error or an empty
URL. -/
theorem downloadMods_failures
    (getFileURL : Nat → String → String → Option (String × Option Error))
    (downloadFileTo : Nat → String → String → Option Error) (packDir : String)
    (files : List ModRef) (out : Nat → String × Option Error)
    (hout : ∀ j m, files[j]? = some m →
      getFileURL j (Itoa m.ProjectID) (Itoa m.FileID) = some (out j)) :
    ∃ b, downloadMods getFileURL downloadFileTo packDir files = some b ∧
      b.failures =
        ((files.enum.filter fun im => unresolved (out im.1)).map fun im =>
          Itoa im.2.ProjectID ++ "/" ++ Itoa im.2.FileID) := by
  obtain ⟨b, hb, hf⟩ := modLoop_failures getFileURL downloadFileTo (pathJoin [packDir, "mods"])
    out files 0 ⟨[], []⟩ (by simpa using hout)
  refine ⟨b, hb, ?_⟩
  rw [hf, expectedFailures_eq_filter]
  simp [List.enum]

/-- Witness of C2: four references; the first resolves, the second returns
an error, the third an empty URL, the fourth resolves.  The failure list
holds the second and the third. -/
theorem downloadMods_failures_witness :
    ∃ b, downloadMods
        (fun i _ _ => some ([("https://h/a.jar", none), ("", some "404"), ("", none),
          ("https://h/d.jar", none)].getD i ("", none)))
        (fun i _ _ => if i = 0 then some "download failed" else none) "pack"
        [⟨11, 101⟩, ⟨22, 202⟩, ⟨33, 303⟩, ⟨44, 404⟩] = some b ∧
      b.failures = ["22/202", "33/303"] := by
  obtain ⟨b, hb, hf⟩ := downloadMods_failures
    (fun i _ _ => some ([("https://h/a.jar", none), ("", some "404"), ("", none),
      ("https://h/d.jar", none)].getD i ("", none)))
    (fun i _ _ => if i = 0 then some "download failed" else none) "pack"
    [⟨11, 101⟩, ⟨22, 202⟩, ⟨33, 303⟩, ⟨44, 404⟩]
    (fun i => [("https://h/a.jar", none), ("", some "404"), ("", none),
      ("https://h/d.jar", none)].getD i ("", none))
    (fun _ _ _ => rfl)
  exact ⟨b, hb, hf.trans (by decide)⟩

/-! ## The filesystem tree -/

theorem getEntry_setEntry (k x : String) (v : Node) (es : List (String × Node)) :
    getEntry x (setEntry k v es) = if k = x then some v else getEntry x es := by
  induction es with
  | nil => simp [setEntry, getEntry]
  | cons e rest ih =>
    obtain ⟨k1, v1⟩ := e
    by_cases h1 : k1 = k
    · subst h1
      by_cases h2 : k1 = x <;> simp [setEntry, getEntry, h2]
    · by_cases h2 : k = x
      · subst h2
        simp [setEntry, getEntry, h1, ih]
      · simp [setEntry, getEntry, h1, h2, ih]

theorem lookup_nil (n : Node) : n.lookup [] = some n := by
  cases n <;> rfl

theorem lookup_cons_file (c : String) (cs : Path) (content : String) :
    (Node.file content).lookup (c :: cs) = none := rfl

theorem lookup_cons_dir (c : String) (cs : Path) (es : List (String × Node)) :
    (Node.dir es).lookup (c :: cs) = (getEntry c es).bind (Node.lookup cs) := by
  rw [Node.lookup]
  cases getEntry c es <;> rfl

theorem lookup_append (p q : Path) : ∀ fs : Node,
    fs.lookup (p ++ q) = (fs.lookup p).bind (Node.lookup q) := by
  induction p with
  | nil => intro fs; simp [lookup_nil]
  | cons c cs ih =>
    intro fs
    cases fs with
    | file content => simp [lookup_cons_file]
    | dir es =>
      simp only [List.cons_append, lookup_cons_dir]
      cases getEntry c es with
      | none => rfl
      | some child => simpa using ih child

/-- A node below a path shows that every proper initial segment of the path
is a directory. -/
theorem lookup_prefix_dir (p q : Path) (fs n : Node) (h : fs.lookup p = some n)
    (hq : q <+: p) (hne : q ≠ p) : ∃ es, fs.lookup q = some (Node.dir es) := by
  obtain ⟨r, rfl⟩ := hq
  rw [lookup_append] at h
  cases r with
  | nil => simp at hne
  | cons c cs =>
    cases hq : fs.lookup q with
    | none => simp [hq] at h
    | some m =>
      cases m with
      | file content => simp [hq, lookup_cons_file] at h
      | dir es => exact ⟨es, rfl⟩

/-- Creating or overwriting the file `last` in the directory `parent` keeps
every other regular file. -/
theorem atDir_putFile_keeps (last content : String) : ∀ (parent : Path) (fs fs1 : Node)
    (p : Path) (c : String),
    Node.atDir (putFile last content) parent fs = Except.ok fs1 →
    fs.lookup p = some (Node.file c) → p ≠ parent ++ [last] →
    fs1.lookup p = some (Node.file c) := by
  intro parent
  induction parent with
  | nil =>
    intro fs fs1 p c hrun hp hne
    cases fs with
    | file content1 => simp [Node.atDir] at hrun
    | dir es =>
      cases p with
      | nil => simp [lookup_nil] at hp
      | cons x r =>
        rw [lookup_cons_dir] at hp
        simp only [Node.atDir, putFile] at hrun
        have hx : x ≠ last := by
          intro hx
          subst hx
          cases hg : getEntry x es with
          | none => simp [hg] at hp
          | some child =>
            cases child with
            | dir es1 => simp [hg, Except.map] at hrun
            | file content1 =>
              cases r with
              | nil => simp at hne
              | cons y r1 => simp [hg, lookup_cons_file] at hp
        have hset : fs1 = Node.dir (setEntry last (Node.file content) es) := by
          cases hg : getEntry last es with
          | none => simp [hg, Except.map] at hrun; exact hrun.symm
          | some child =>
            cases child with
            | dir es1 => simp [hg, Except.map] at hrun
            | file content1 => simp [hg, Except.map] at hrun; exact hrun.symm
        subst hset
        rw [lookup_cons_dir, getEntry_setEntry]
        simp [Ne.symm hx, hp]
  | cons d rest ih =>
    intro fs fs1 p c hrun hp hne
    cases fs with
    | file content1 => simp [Node.atDir] at hrun
    | dir es =>
      cases p with
      | nil => simp [lookup_nil] at hp
      | cons x r =>
        rw [lookup_cons_dir] at hp
        simp only [Node.atDir] at hrun
        cases hg : getEntry d es with
        | none => simp [hg] at hrun
        | some child =>
          simp only [hg] at hrun
          cases hsub : Node.atDir (putFile last content) rest child with
          | error e => simp [hsub, Except.map] at hrun
          | ok child1 =>
            simp only [hsub, Except.map, Except.ok.injEq] at hrun
            subst hrun
            rw [lookup_cons_dir, getEntry_setEntry]
            by_cases hx : d = x
            · subst hx
              simp only [if_true, Option.some_bind]
              simp only [hg, Option.some_bind] at hp
              exact ih child child1 r c hsub hp (by simpa using hne)
            · simp [hx, hp]

/-- Creating directories keeps every regular file. -/
theorem mkdirAll_keeps : ∀ (q : Path) (fs fs1 : Node) (p : Path) (c : String),
    Node.mkdirAll q fs = Except.ok fs1 → fs.lookup p = some (Node.file c) →
    fs1.lookup p = some (Node.file c) := by
  intro q
  induction q with
  | nil =>
    intro fs fs1 p c hrun hp
    cases fs with
    | file content1 => simp [Node.mkdirAll] at hrun
    | dir es =>
      simp only [Node.mkdirAll, Except.ok.injEq] at hrun
      subst hrun
      exact hp
  | cons d rest ih =>
    intro fs fs1 p c hrun hp
    cases fs with
    | file content1 => simp [Node.mkdirAll] at hrun
    | dir es =>
      cases p with
      | nil => simp [lookup_nil] at hp
      | cons x r =>
        rw [lookup_cons_dir] at hp
        simp only [Node.mkdirAll] at hrun
        cases hg : getEntry d es with
        | none =>
          simp only [hg] at hrun
          cases hsub : Node.mkdirAll rest (Node.dir []) with
          | error e => simp [hsub, Except.map] at hrun
          | ok child1 =>
            simp only [hsub, Except.map, Except.ok.injEq] at hrun
            subst hrun
            rw [lookup_cons_dir, getEntry_setEntry]
            have hx : d ≠ x := by
              intro hx
              subst hx
              simp [hg] at hp
            simp [hx, hp]
        | some child =>
          simp only [hg] at hrun
          cases hsub : Node.mkdirAll rest child with
          | error e => simp [hsub, Except.map] at hrun
          | ok child1 =>
            simp only [hsub, Except.map, Except.ok.injEq] at hrun
            subst hrun
            rw [lookup_cons_dir, getEntry_setEntry]
            by_cases hx : d = x
            · subst hx
              simp only [if_true, Option.some_bind]
              simp only [hg, Option.some_bind] at hp
              exact ih child child1 r c hsub hp
            · simp [hx, hp]

/-- After a successful creation of the file `last` in `parent`, writing its
bytes succeeds and the file holds them. -/
theorem atDir_putFile_then (last c1 c2 : String) : ∀ (parent : Path) (fs fs1 : Node),
    Node.atDir (putFile last c1) parent fs = Except.ok fs1 →
    ∃ fs2, Node.atDir (putFile last c2) parent fs1 = Except.ok fs2 ∧
      fs2.lookup (parent ++ [last]) = some (Node.file c2) := by
  intro parent
  induction parent with
  | nil =>
    intro fs fs1 hrun
    cases fs with
    | file content1 => simp [Node.atDir] at hrun
    | dir es =>
      have hset : fs1 = Node.dir (setEntry last (Node.file c1) es) := by
        simp only [Node.atDir, putFile] at hrun
        cases hg : getEntry last es with
        | none => simp [hg, Except.map] at hrun; exact hrun.symm
        | some child =>
          cases child with
          | dir es1 => simp [hg, Except.map] at hrun
          | file content1 => simp [hg, Except.map] at hrun; exact hrun.symm
      subst hset
      refine ⟨Node.dir (setEntry last (Node.file c2) (setEntry last (Node.file c1) es)), ?_, ?_⟩
      · simp [Node.atDir, putFile, getEntry_setEntry, Except.map]
      · simp [lookup_cons_dir, getEntry_setEntry, lookup_nil]
  | cons d rest ih =>
    intro fs fs1 hrun
    cases fs with
    | file content1 => simp [Node.atDir] at hrun
    | dir es =>
      simp only [Node.atDir] at hrun
      cases hg : getEntry d es with
      | none => simp [hg] at hrun
      | some child =>
        simp only [hg] at hrun
        cases hsub : Node.atDir (putFile last c1) rest child with
        | error e => simp [hsub, Except.map] at hrun
        | ok child1 =>
          simp only [hsub, Except.map, Except.ok.injEq] at hrun
          subst hrun
          obtain ⟨child2, h2, hl⟩ := ih child child1 hsub
          refine ⟨Node.dir (setEntry d child2 (setEntry d child1 es)), ?_, ?_⟩
          · simp [Node.atDir, getEntry_setEntry, h2, Except.map]
          · simp [lookup_cons_dir, getEntry_setEntry, hl]

/-- A non-empty resolved path is its parent followed by its last name. -/
theorem dropLast_append_last (p : Path) (last : String) (h : p.getLast? = some last) :
    p.dropLast ++ [last] = p :=
  List.dropLast_append_getLast? last h

/-! ## `unzip` on the filesystem tree -/

/-- A directory entry is skipped by the loop. -/
theorem unzipLoop_dir {σ : Type} (sys : Sys σ) (dest : String) (e : ZipFile)
    (rest : List ZipFile) (s : σ) (hdir : e.IsDir = true) :
    unzipLoop sys dest (e :: rest) s = unzipLoop sys dest rest s := by
  simp [unzipLoop, hdir]

/-- One successful iteration of the loop on a non-directory entry: the file
is created after the attempt to create its directory, and the loop goes on
after the write. -/
theorem unzipLoop_file (archives : String → Except Error (List ZipFile)) (dest : String)
    (e : ZipFile) (rest : List ZipFile) (fs fs1 : Node) (hfile : e.IsDir = false)
    (hrun : unzipLoop (fsSys archives) dest (e :: rest) fs = (none, fs1)) :
    ∃ s3, osCreate (pathJoin [dest, e.Name])
        (ignoreErr (osMkdirAll (pathDir (pathJoin [dest, e.Name])) fs) fs) = Except.ok s3 ∧
      unzipLoop (fsSys archives) dest rest
        (ignoreErr (osWrite (pathJoin [dest, e.Name]) e.Data s3) s3) = (none, fs1) := by
  have hfst : ∀ (r : Except Error Node) (t : Node), (runFs r t).2 = ignoreErr r t := by
    intro r t
    cases r <;> rfl
  simp only [unzipLoop, hfile, fsSys, hfst] at hrun
  cases hc : osCreate (pathJoin [dest, e.Name])
      (ignoreErr (osMkdirAll (pathDir (pathJoin [dest, e.Name])) fs) fs) with
  | error err => simp [hc, runFs] at hrun
  | ok s3 =>
    refine ⟨s3, rfl, ?_⟩
    simpa [hc, runFs] using hrun

/-- The three filesystem calls of an iteration keep a regular file that is
not the one the iteration writes. -/
theorem iteration_keeps (name dirName content : String) (fs s3 : Node) (p : Path) (c : String)
    (hc : osCreate name (ignoreErr (osMkdirAll dirName fs) fs) = Except.ok s3)
    (hp : fs.lookup p = some (Node.file c)) (hne : resolve name ≠ p) :
    (ignoreErr (osWrite name content s3) s3).lookup p = some (Node.file c) := by
  have h2 : (ignoreErr (osMkdirAll dirName fs) fs).lookup p = some (Node.file c) := by
    cases hm : osMkdirAll dirName fs with
    | error err => simpa [ignoreErr] using hp
    | ok fs2 => exact mkdirAll_keeps _ fs fs2 p c hm hp
  simp only [osCreate] at hc
  cases hl : (resolve name).getLast? with
  | none => simp [hl] at hc
  | some last =>
    simp only [hl] at hc
    have hpath := dropLast_append_last _ last hl
    have hne2 : p ≠ (resolve name).dropLast ++ [last] := by
      rw [hpath]
      exact Ne.symm hne
    have h3 := atDir_putFile_keeps last "" _ _ s3 p c hc h2 hne2
    cases hw : osWrite name content s3 with
    | error err => simpa [ignoreErr] using h3
    | ok s4 =>
      simp only [ignoreErr]
      simp only [osWrite, hl] at hw
      exact atDir_putFile_keeps last content _ s3 s4 p c hw h3 hne2

/-- The file an iteration writes holds the bytes of the entry afterwards. -/
theorem iteration_writes (name content : String) (fs2 s3 : Node)
    (hc : osCreate name fs2 = Except.ok s3) :
    (ignoreErr (osWrite name content s3) s3).lookup (resolve name) =
      some (Node.file content) := by
  simp only [osCreate] at hc
  cases hl : (resolve name).getLast? with
  | none => simp [hl] at hc
  | some last =>
    simp only [hl] at hc
    obtain ⟨s4, hw, hlook⟩ := atDir_putFile_then last "" content _ fs2 s3 hc
    rw [dropLast_append_last _ last hl] at hlook
    simp [osWrite, hl, hw, ignoreErr, hlook]

/-- A successful run of the loop keeps a regular file that no entry of the
archive is written to. -/
theorem unzipLoop_keeps (archives : String → Except Error (List ZipFile)) (dest : String)
    (p : Path) (c : String) : ∀ (files : List ZipFile) (fs fs1 : Node),
    unzipLoop (fsSys archives) dest files fs = (none, fs1) →
    fs.lookup p = some (Node.file c) →
    (∀ e ∈ files, e.IsDir = false → destPath dest e ≠ p) →
    fs1.lookup p = some (Node.file c) := by
  intro files
  induction files with
  | nil =>
    intro fs fs1 hrun hp _
    simp only [unzipLoop, Prod.mk.injEq, true_and] at hrun
    subst hrun
    exact hp
  | cons e rest ih =>
    intro fs fs1 hrun hp hne
    have hrest : ∀ e1 ∈ rest, e1.IsDir = false → destPath dest e1 ≠ p :=
      fun e1 h1 => hne e1 (List.mem_cons_of_mem _ h1)
    cases hd : e.IsDir with
    | true =>
      rw [unzipLoop_dir _ _ _ _ _ hd] at hrun
      exact ih fs fs1 hrun hp hrest
    | false =>
      obtain ⟨s3, hc, hloop⟩ := unzipLoop_file archives dest e rest fs fs1 hd hrun
      exact ih _ fs1 hloop
        (iteration_keeps _ _ _ fs s3 p c hc hp (hne e (List.mem_cons_self _ _) hd)) hrest

/-- After a successful run of the loop on entries written to pairwise
distinct files, every non-directory entry is a file with its bytes. -/
theorem unzipLoop_extracts (archives : String → Except Error (List ZipFile)) (dest : String) :
    ∀ (files : List ZipFile) (fs fs1 : Node),
    unzipLoop (fsSys archives) dest files fs = (none, fs1) →
    (files.filter fun e => !e.IsDir).Pairwise (fun a b => destPath dest a ≠ destPath dest b) →
    ∀ e ∈ files, e.IsDir = false →
      fs1.lookup (destPath dest e) = some (Node.file e.Data) := by
  intro files
  induction files with
  | nil => intro fs fs1 _ _ e he; cases he
  | cons e0 rest ih =>
    intro fs fs1 hrun hpair e he hfile
    cases hd : e0.IsDir with
    | true =>
      rw [unzipLoop_dir _ _ _ _ _ hd] at hrun
      have hpair1 : (rest.filter fun e => !e.IsDir).Pairwise
          (fun a b => destPath dest a ≠ destPath dest b) := by
        simpa [List.filter_cons, hd] using hpair
      rcases List.mem_cons.mp he with h | h
      · subst h
        rw [hd] at hfile
        cases hfile
      · exact ih fs fs1 hrun hpair1 e h hfile
    | false =>
      obtain ⟨s3, hc, hloop⟩ := unzipLoop_file archives dest e0 rest fs fs1 hd hrun
      have hpair0 :
          (∀ b ∈ rest.filter (fun e => !e.IsDir), destPath dest e0 ≠ destPath dest b) ∧
          (rest.filter fun e => !e.IsDir).Pairwise
            (fun a b => destPath dest a ≠ destPath dest b) := by
        simpa [List.filter_cons, hd] using hpair
      rcases List.mem_cons.mp he with h | h
      · subst h
        refine unzipLoop_keeps archives dest _ _ rest _ fs1 hloop
          (iteration_writes _ _ _ s3 hc) ?_
        intro e1 h1 hf1
        exact Ne.symm (hpair0.1 e1 (by simp [List.mem_filter, h1, hf1]))
      · exact ih _ fs1 hloop hpair0.2 e h hfile

/-- Directory entries do not change what the loop does. -/
theorem unzipLoop_filter {σ : Type} (sys : Sys σ) (dest : String) :
    ∀ (files : List ZipFile) (s : σ),
    unzipLoop sys dest (files.filter fun e => !e.IsDir) s = unzipLoop sys dest files s := by
  intro files
  induction files with
  | nil => intro s; rfl
  | cons e rest ih =>
    intro s
    cases hd : e.IsDir with
    | true => simp [List.filter_cons, hd, unzipLoop, ih]
    | false => simp [List.filter_cons, hd, unzipLoop, ih]

/-- The loop of `unzip` does not read the archive table of the environment. -/
theorem unzipLoop_archives (a1 a2 : String → Except Error (List ZipFile)) (dest : String) :
    ∀ (files : List ZipFile) (fs : Node),
    unzipLoop (fsSys a1) dest files fs = unzipLoop (fsSys a2) dest files fs := by
  intro files
  induction files with
  | nil => intro fs; rfl
  | cons e rest ih =>
    intro fs
    simp only [unzipLoop, fsSys] at ih ⊢
    simp only [ih]

/-- C10: when the copy of the bytes of the first entry fails, or when the
creation of the directory fails, `unzip` still returns nil and goes on with
the next entry: the results of `create.ReadFrom` and of `os.MkdirAll` are
discarded. -/
theorem unzip_ignores_copy_failure :
    copyFails "ReadFrom" "a.txt" = true ∧
    unzip (logSys twoFiles copyFails) "pack.zip" "out" [] =
      (none, ["OpenReader pack.zip",
        "Open a.txt", "MkdirAll out", "Create out/a.txt", "ReadFrom a.txt -> out/a.txt",
        "Open b.txt", "MkdirAll out", "Create out/b.txt", "ReadFrom b.txt -> out/b.txt"]) ∧
    mkdirFails "MkdirAll" "out" = true ∧
    unzip (logSys twoFiles mkdirFails) "pack.zip" "out" [] =
      (none, ["OpenReader pack.zip",
        "Open a.txt", "MkdirAll out", "Create out/a.txt", "ReadFrom a.txt -> out/a.txt",
        "Open b.txt", "MkdirAll out", "Create out/b.txt", "ReadFrom b.txt -> out/b.txt"]) := by
  decide

/-! ## The clean-up of the pack structure -/

/-- C7: on a pack directory whose top-level `config` is a non-empty
directory and whose overrides folder holds a `config` too, the clean-up
keeps the original top-level `config`, does not promote the one of the
overrides folder, and leaves the overrides folder in place: `os.Remove`
fails on the non-empty directory, `os.Rename` fails on the occupied target,
and `os.Remove` fails on the overrides folder that is not empty. -/
theorem cleanUp_collision_keeps_original :
    cleanUp "pack" collidingPack =
      some (Node.dir [("pack", Node.dir [
        ("config", Node.dir [("a.txt", Node.file "old")]),
        ("overrides", Node.dir [("config", Node.dir [("b.txt", Node.file "new")])])])]) ∧
    (cleanUp "pack" collidingPack).bind (Node.lookup ["pack", "config"]) =
      some (Node.dir [("a.txt", Node.file "old")]) ∧
    (cleanUp "pack" collidingPack).bind (Node.lookup ["pack", "overrides"]) =
      some (Node.dir [("config", Node.dir [("b.txt", Node.file "new")])]) :=
  ⟨rfl, rfl, rfl⟩

/-- C8, as stated, fails: the pack directory has no entry `overrides`, and
the clean-up deletes its regular file `options.txt`, so the tree is
changed. -/
theorem cleanUp_normalized_counterexample :
    osReadDir "pack" normalizedPack = Except.ok ["options.txt"] ∧
    cleanUp "pack" normalizedPack = some (Node.dir [("pack", Node.dir [])]) ∧
    ¬ (cleanUp "pack" normalizedPack = some normalizedPack) := by
  refine ⟨rfl, rfl, ?_⟩
  intro h
  have h2 : cleanUp "pack" normalizedPack = some (Node.dir [("pack", Node.dir [])]) := rfl
  rw [h2] at h
  simp [normalizedPack] at h

/-! ## Path elements -/

theorem splitSlash_ne_nil (l : List Char) : splitSlash l ≠ [] := by
  cases l with
  | nil => simp [splitSlash]
  | cons c cs =>
    by_cases hc : c = '/'
    · simp [splitSlash, hc]
    · cases h : splitSlash cs <;> simp [splitSlash, hc, h]

theorem splitSlash_cons (c : Char) (cs : List Char) (hc : c ≠ '/') :
    splitSlash (c :: cs) =
      match splitSlash cs with
      | [] => [[c]]
      | h :: t => (c :: h) :: t := by
  simp [splitSlash, hc]

theorem splitSlash_noSlash (x : List Char) (hx : '/' ∉ x) : splitSlash x = [x] := by
  induction x with
  | nil => rfl
  | cons c cs ih =>
    have hc : c ≠ '/' := fun h => hx (by simp [h])
    have hcs : '/' ∉ cs := fun h => hx (List.mem_cons_of_mem _ h)
    simp [splitSlash, hc, ih hcs]

theorem splitSlash_append_slash (p q : List Char) :
    splitSlash (p ++ '/' :: q) = splitSlash p ++ splitSlash q := by
  induction p with
  | nil => simp [splitSlash]
  | cons c cs ih =>
    by_cases hc : c = '/'
    · simp [splitSlash, hc, ih]
    · cases h : splitSlash cs with
      | nil => exact absurd h (splitSlash_ne_nil cs)
      | cons a t =>
        rw [List.cons_append, splitSlash_cons _ _ hc, splitSlash_cons _ _ hc, ih, h]
        rfl

theorem mem_splitSlash_noSlash (l : List Char) : ∀ e ∈ splitSlash l, '/' ∉ e := by
  induction l with
  | nil => simp [splitSlash]
  | cons c cs ih =>
    by_cases hc : c = '/'
    · simp only [splitSlash, hc, if_true]
      intro e he
      rcases List.mem_cons.mp he with h | h
      · simp [h]
      · exact ih e h
    · simp only [splitSlash, hc, if_false]
      cases h : splitSlash cs with
      | nil => exact absurd h (splitSlash_ne_nil cs)
      | cons a t =>
        rw [h] at ih
        intro e he
        rcases List.mem_cons.mp he with h1 | h1
        · subst h1
          intro hmem
          rcases List.mem_cons.mp hmem with h2 | h2
          · exact hc h2.symm
          · exact ih a (List.mem_cons_self _ _) h2
        · exact ih e (List.mem_cons_of_mem _ h1)

theorem splitSlash_joinSlash (E : List (List Char)) (hne : E ≠ [])
    (hE : ∀ e ∈ E, '/' ∉ e) : splitSlash (joinSlash E) = E := by
  induction E with
  | nil => exact absurd rfl hne
  | cons a rest ih =>
    cases rest with
    | nil => simpa [joinSlash] using splitSlash_noSlash a (hE a (List.mem_cons_self _ _))
    | cons b rest1 =>
      have h1 := ih (by simp) (fun e he => hE e (List.mem_cons_of_mem _ he))
      simp only [joinSlash, splitSlash_append_slash, h1,
        splitSlash_noSlash a (hE a (List.mem_cons_self _ _))]
      rfl

theorem cleanStep_normal (r : Bool) (st : List (List Char)) (c : List Char)
    (hc : normalElem c) : cleanStep r st c = c :: st := by
  simp [cleanStep, hc.1, hc.2.1, hc.2.2]

theorem foldl_cleanStep_normal (r : Bool) : ∀ (N st : List (List Char)),
    (∀ c ∈ N, normalElem c) → N.foldl (cleanStep r) st = N.reverse ++ st := by
  intro N
  induction N with
  | nil => intro st _; rfl
  | cons c N ih =>
    intro st hN
    rw [List.foldl_cons, cleanStep_normal r st c (hN c (List.mem_cons_self _ _)),
      ih _ (fun e he => hN e (List.mem_cons_of_mem _ he))]
    simp

/-- Every element the cleaning keeps was on the stack or in the input. -/
theorem foldl_cleanStep_mem (r : Bool) (P : List Char → Prop) :
    ∀ (X st : List (List Char)), (∀ c ∈ st, P c) → (∀ c ∈ X, P c) →
      ∀ c ∈ X.foldl (cleanStep r) st, P c := by
  intro X
  induction X with
  | nil => intro st hst _; simpa using hst
  | cons x X ih =>
    intro st hst hX
    rw [List.foldl_cons]
    refine ih _ ?_ (fun e he => hX e (List.mem_cons_of_mem _ he))
    have hx := hX x (List.mem_cons_self _ _)
    intro c hc
    unfold cleanStep at hc
    split at hc
    · exact hst c hc
    · split at hc
      · exact hst c hc
      · split at hc
        · cases st with
          | nil =>
            cases r
            · simp at hc; rw [hc]; exact hx
            · simp at hc
          | cons top below =>
            simp only at hc
            split at hc
            · rcases List.mem_cons.mp hc with h | h
              · rw [h]; exact hx
              · exact hst c h
            · exact hst c (List.mem_cons_of_mem _ hc)
        · rcases List.mem_cons.mp hc with h | h
          · rw [h]; exact hx
          · exact hst c h

/-- The rooted and the unrooted cleaning of the same elements differ by
leading `..` elements only; the rooted one keeps normal elements only. -/
theorem foldl_cleanStep_rel : ∀ (X stT : List (List Char)) (k : Nat),
    (∀ c ∈ stT, normalElem c) →
    ∃ k1, X.foldl (cleanStep false) (stT ++ List.replicate k ['.', '.']) =
        X.foldl (cleanStep true) stT ++ List.replicate k1 ['.', '.'] ∧
      ∀ c ∈ X.foldl (cleanStep true) stT, normalElem c := by
  intro X
  induction X with
  | nil => intro stT k hst; exact ⟨k, rfl, hst⟩
  | cons x X ih =>
    intro stT k hst
    simp only [List.foldl_cons]
    by_cases h1 : x = []
    · subst h1
      simpa [cleanStep] using ih stT k hst
    by_cases h2 : x = ['.']
    · subst h2
      simpa [cleanStep] using ih stT k hst
    by_cases h3 : x = ['.', '.']
    · subst h3
      cases stT with
      | nil =>
        have hT : cleanStep true [] ['.', '.'] = [] := by simp [cleanStep]
        have hF : cleanStep false ([] ++ List.replicate k ['.', '.']) ['.', '.'] =
            [] ++ List.replicate (k + 1) ['.', '.'] := by
          cases k with
          | zero => simp [cleanStep]
          | succ k0 => simp [cleanStep, List.replicate_succ]
        rw [hT, hF]
        exact ih [] (k + 1) hst
      | cons top below =>
        have htop : top ≠ ['.', '.'] := (hst top (List.mem_cons_self _ _)).2.2
        have hT : cleanStep true (top :: below) ['.', '.'] = below := by
          simp [cleanStep, htop]
        have hF : cleanStep false (top :: below ++ List.replicate k ['.', '.']) ['.', '.'] =
            below ++ List.replicate k ['.', '.'] := by
          simp [cleanStep, htop]
        rw [hT, hF]
        exact ih below k (fun c hc => hst c (List.mem_cons_of_mem _ hc))
    · have hx : normalElem x := ⟨h1, h2, h3⟩
      rw [cleanStep_normal true stT x hx, cleanStep_normal false _ x hx]
      have := ih (x :: stT) k (by
        intro c hc
        rcases List.mem_cons.mp hc with h | h
        · rw [h]; exact hx
        · exact hst c h)
      simpa using this

theorem foldl_cleanStep_dots (k : Nat) :
    (List.replicate k ['.', '.']).foldl (cleanStep true) [] = [] := by
  induction k with
  | zero => rfl
  | succ k ih =>
    rw [List.replicate_succ, List.foldl_cons]
    simpa [cleanStep] using ih

/-- Rooted cleaning of leading `..` elements followed by normal elements
keeps the normal elements. -/
theorem cleanElems_dots_normal (k : Nat) (N : List (List Char))
    (hN : ∀ c ∈ N, normalElem c) :
    cleanElems true (List.replicate k ['.', '.'] ++ N) = N := by
  simp [cleanElems, List.foldl_append, foldl_cleanStep_dots, foldl_cleanStep_normal true N [] hN]

theorem joinSlash_eq_nil (F : List (List Char)) (hF : ∀ e ∈ F, e ≠ [])
    (h : joinSlash F = []) : F = [] := by
  cases F with
  | nil => rfl
  | cons a rest =>
    cases rest with
    | nil => exact absurd (by simpa [joinSlash] using h) (hF a (List.mem_cons_self _ _))
    | cons b rest1 => simp [joinSlash] at h

theorem cleanElems_nil_cons (Y : List (List Char)) :
    cleanElems true ([] :: Y) = cleanElems true Y := by
  simp [cleanElems, cleanStep]

/-- The operating system resolves a path and its `path.Clean` to the same
node. -/
theorem cleanElems_cleanChars (s : List Char) :
    cleanElems true (splitSlash (cleanChars s)) = cleanElems true (splitSlash s) := by
  cases s with
  | nil => decide
  | cons c t =>
    obtain ⟨k1, hrel, hnorm⟩ := foldl_cleanStep_rel (splitSlash (c :: t)) [] 0 (by simp)
    simp only [List.replicate_zero, List.append_nil] at hrel
    have hslash : ∀ e ∈ (splitSlash (c :: t)).foldl (cleanStep true) [], '/' ∉ e :=
      foldl_cleanStep_mem true _ _ [] (by simp) (mem_splitSlash_noSlash _)
    have hnormE : ∀ e ∈ cleanElems true (splitSlash (c :: t)), normalElem e := by
      intro e he
      exact hnorm e (by simpa [cleanElems] using he)
    have hslashE : ∀ e ∈ cleanElems true (splitSlash (c :: t)), '/' ∉ e := by
      intro e he
      exact hslash e (by simpa [cleanElems] using he)
    by_cases hc : c = '/'
    · have hclean : cleanChars (c :: t) =
          '/' :: joinSlash (cleanElems true (splitSlash (c :: t))) := by
        simp [cleanChars, hc]
      rw [hclean]
      have hsplit : ∀ J : List Char, splitSlash ('/' :: J) = [] :: splitSlash J := by
        intro J
        simp [splitSlash]
      rw [hsplit, cleanElems_nil_cons]
      by_cases hE : cleanElems true (splitSlash (c :: t)) = []
      · rw [hE]
        decide
      · rw [splitSlash_joinSlash _ hE hslashE]
        exact cleanElems_dots_normal 0 _ hnormE
    · have hF : cleanElems false (splitSlash (c :: t)) =
          List.replicate k1 ['.', '.'] ++ cleanElems true (splitSlash (c :: t)) := by
        simp [cleanElems, hrel]
      have hclean : cleanChars (c :: t) =
          if joinSlash (cleanElems false (splitSlash (c :: t))) = [] then ['.']
          else joinSlash (cleanElems false (splitSlash (c :: t))) := by
        simp [cleanChars, hc]
      rw [hclean]
      have hne : ∀ e ∈ cleanElems false (splitSlash (c :: t)), e ≠ [] := by
        intro e he
        rw [hF] at he
        rcases List.mem_append.mp he with h | h
        · rw [(List.mem_replicate.mp h).2]
          simp
        · exact (hnormE e h).1
      have hsl : ∀ e ∈ cleanElems false (splitSlash (c :: t)), '/' ∉ e := by
        intro e he
        rw [hF] at he
        rcases List.mem_append.mp he with h | h
        · rw [(List.mem_replicate.mp h).2]
          decide
        · exact hslashE e h
      by_cases hJ : joinSlash (cleanElems false (splitSlash (c :: t))) = []
      · rw [if_pos hJ]
        have hnil := joinSlash_eq_nil _ hne hJ
        rw [hF] at hnil
        rw [(List.append_eq_nil.mp hnil).2]
        decide
      · rw [if_neg hJ]
        have hFne : cleanElems false (splitSlash (c :: t)) ≠ [] := by
          intro h
          rw [h] at hJ
          exact hJ rfl
        rw [splitSlash_joinSlash _ hFne hsl, hF]
        exact cleanElems_dots_normal k1 _ hnormE

theorem cleanElems_append_normal (Y : List (List Char)) (x : List Char) (hx : normalElem x) :
    cleanElems true (Y ++ [x]) = cleanElems true Y ++ [x] := by
  simp [cleanElems, List.foldl_append, cleanStep_normal true _ x hx]

/-- The path `path.Join(p, x)` of an entry name `x` below `p` resolves to
the resolved `p` followed by `x`. -/
theorem resolve_join_name (p x : String) (hx : isFileName x) :
    resolve (pathJoin [p, x]) = resolve p ++ [x] := by
  obtain ⟨hne, hslash, hdot, hdots⟩ := hx
  have hnorm : normalElem x.data := ⟨hne, hdot, hdots⟩
  have hlen : ¬ ((List.map (fun e : String => e.data.length) [p, x]).sum = 0) := by
    have hpos : 0 < x.data.length := List.length_pos.mpr hne
    simp only [List.map_cons, List.map_nil, List.sum_cons, List.sum_nil]
    omega
  simp only [resolve, pathJoin, hlen, if_false, cleanElems_cleanChars]
  by_cases hp : p.data = []
  · have hbuf : joinBuf [] [p, x] = x.data := by
      simp [joinBuf, hp, hne]
    rw [hbuf, hp, splitSlash_noSlash _ hslash]
    have h1 : cleanElems true [x.data] = [x.data] := cleanElems_dots_normal 0 [x.data] (by
      intro c hc
      rw [List.mem_singleton.mp hc]
      exact hnorm)
    rw [h1]
    rfl
  · have hbuf : joinBuf [] [p, x] = p.data ++ '/' :: x.data := by
      simp [joinBuf, hp]
    rw [hbuf, splitSlash_append_slash, splitSlash_noSlash _ hslash,
      cleanElems_append_normal _ _ hnorm]
    simp

/-! ## Replacing the entries of a directory -/

theorem setEntry_getEntry (c : String) (child : Node) (es : List (String × Node))
    (h : getEntry c es = some child) : setEntry c child es = es := by
  induction es with
  | nil => simp [getEntry] at h
  | cons e rest ih =>
    obtain ⟨k, v⟩ := e
    by_cases hk : k = c
    · subst hk
      simp only [getEntry, if_true, Option.some.injEq] at h
      simp [setEntry, h]
    · simp only [getEntry, hk, if_false] at h
      simp [setEntry, hk, ih h]

theorem setEntry_setEntry (c : String) (v1 v2 : Node) (es : List (String × Node)) :
    setEntry c v2 (setEntry c v1 es) = setEntry c v2 es := by
  induction es with
  | nil => simp [setEntry]
  | cons e rest ih =>
    obtain ⟨k, v⟩ := e
    by_cases hk : k = c
    · simp [setEntry, hk]
    · simp [setEntry, hk, ih]

theorem atDir_eq_withEntries (f : List (String × Node) → Except Error (List (String × Node))) :
    ∀ (p : Path) (fs : Node) (es : List (String × Node)),
    fs.lookup p = some (Node.dir es) →
    Node.atDir f p fs = (f es).map fun es1 => Node.withEntries p es1 fs := by
  intro p
  induction p with
  | nil =>
    intro fs es h
    rw [lookup_nil] at h
    cases h
    simp [Node.atDir, Node.withEntries]
  | cons c cs ih =>
    intro fs es h
    cases fs with
    | file content => simp [lookup_cons_file] at h
    | dir es0 =>
      rw [lookup_cons_dir] at h
      cases hg : getEntry c es0 with
      | none => simp [hg] at h
      | some child =>
        simp only [hg, Option.some_bind] at h
        simp only [Node.atDir, hg, ih child es h, Node.withEntries]
        cases f es <;> rfl

theorem lookup_withEntries (es1 : List (String × Node)) :
    ∀ (p : Path) (fs : Node) (es : List (String × Node)),
    fs.lookup p = some (Node.dir es) →
    (Node.withEntries p es1 fs).lookup p = some (Node.dir es1) := by
  intro p
  induction p with
  | nil =>
    intro fs es h
    rw [lookup_nil] at h
    cases h
    simp [Node.withEntries, lookup_nil]
  | cons c cs ih =>
    intro fs es h
    cases fs with
    | file content => simp [lookup_cons_file] at h
    | dir es0 =>
      rw [lookup_cons_dir] at h
      cases hg : getEntry c es0 with
      | none => simp [hg] at h
      | some child =>
        simp only [hg, Option.some_bind] at h
        simp [Node.withEntries, hg, lookup_cons_dir, getEntry_setEntry, ih child es h]

theorem withEntries_withEntries (es1 es2 : List (String × Node)) :
    ∀ (p : Path) (fs : Node) (es : List (String × Node)),
    fs.lookup p = some (Node.dir es) →
    Node.withEntries p es2 (Node.withEntries p es1 fs) = Node.withEntries p es2 fs := by
  intro p
  induction p with
  | nil =>
    intro fs es h
    rw [lookup_nil] at h
    cases h
    simp [Node.withEntries]
  | cons c cs ih =>
    intro fs es h
    cases fs with
    | file content => simp [lookup_cons_file] at h
    | dir es0 =>
      rw [lookup_cons_dir] at h
      cases hg : getEntry c es0 with
      | none => simp [hg] at h
      | some child =>
        simp only [hg, Option.some_bind] at h
        simp [Node.withEntries, hg, getEntry_setEntry, setEntry_setEntry, ih child es h]

theorem withEntries_self :
    ∀ (p : Path) (fs : Node) (es : List (String × Node)),
    fs.lookup p = some (Node.dir es) → Node.withEntries p es fs = fs := by
  intro p
  induction p with
  | nil =>
    intro fs es h
    rw [lookup_nil] at h
    cases h
    simp [Node.withEntries]
  | cons c cs ih =>
    intro fs es h
    cases fs with
    | file content => simp [lookup_cons_file] at h
    | dir es0 =>
      rw [lookup_cons_dir] at h
      cases hg : getEntry c es0 with
      | none => simp [hg] at h
      | some child =>
        simp only [hg, Option.some_bind] at h
        simp [Node.withEntries, hg, ih child es h, setEntry_getEntry c child es0 hg]

/-! ## The first loop of the clean-up -/

/-- `os.Remove` of the entry `x` of the directory `p`, its error discarded,
acts on the entries of that directory as `removeStep` does. -/
theorem remove_entry_step (p x : String) (fs : Node) (es : List (String × Node))
    (hdir : fs.lookup (resolve p) = some (Node.dir es)) (hx : isFileName x) :
    (if x ≠ OVERRIDES then ignoreErr (osRemove (pathJoin [p, x]) fs) fs else fs) =
      Node.withEntries (resolve p) (removeStep es x) fs := by
  by_cases ho : x = OVERRIDES
  · simp [ho, removeStep, withEntries_self _ fs es hdir]
  · have hlast : (resolve p ++ [x]).getLast? = some x := by simp
    have hdrop : (resolve p ++ [x]).dropLast = resolve p := by simp
    simp only [ne_eq, ho, not_false_eq_true, if_true, removeStep, osRemove,
      resolve_join_name p x hx, hlast, hdrop, atDir_eq_withEntries _ _ fs es hdir]
    cases h : removeEntry x es with
    | error e => simp [Except.map, ignoreErr, withEntries_self _ fs es hdir]
    | ok es1 => simp [Except.map, ignoreErr]

theorem removeOthers_eq (p : String) : ∀ (names : List String) (fs : Node)
    (es : List (String × Node)),
    fs.lookup (resolve p) = some (Node.dir es) → (∀ x ∈ names, isFileName x) →
    removeOthers p names fs = Node.withEntries (resolve p) (names.foldl removeStep es) fs := by
  intro names
  induction names with
  | nil =>
    intro fs es hdir _
    simp [removeOthers, withEntries_self _ fs es hdir]
  | cons x rest ih =>
    intro fs es hdir hnames
    have hstep := remove_entry_step p x fs es hdir (hnames x (List.mem_cons_self _ _))
    have hrest := ih (Node.withEntries (resolve p) (removeStep es x) fs) (removeStep es x)
      (lookup_withEntries _ _ fs es hdir) (fun y hy => hnames y (List.mem_cons_of_mem _ hy))
    simp only [removeOthers, List.foldl_cons] at hrest ⊢
    rw [hstep, hrest, withEntries_withEntries _ _ _ fs es hdir]

theorem getEntry_mem (x : String) (n : Node) (es : List (String × Node))
    (h : getEntry x es = some n) : (x, n) ∈ es := by
  induction es with
  | nil => simp [getEntry] at h
  | cons e rest ih =>
    obtain ⟨k, v⟩ := e
    by_cases hk : k = x
    · subst hk
      simp only [getEntry, if_true, Option.some.injEq] at h
      simp [h]
    · simp only [getEntry, hk, if_false] at h
      exact List.mem_cons_of_mem _ (ih h)

theorem getEntry_none (x : String) (es : List (String × Node))
    (h : getEntry x es = none) : ∀ e ∈ es, e.1 ≠ x := by
  induction es with
  | nil => simp
  | cons e rest ih =>
    obtain ⟨k, v⟩ := e
    by_cases hk : k = x
    · simp [getEntry, hk] at h
    · simp only [getEntry, hk, if_false] at h
      intro e he
      rcases List.mem_cons.mp he with h1 | h1
      · rw [h1]; exact hk
      · exact ih h e h1

theorem eraseEntry_absent (x : String) (es : List (String × Node))
    (h : ∀ e ∈ es, e.1 ≠ x) : eraseEntry x es = es := by
  simp only [eraseEntry, List.filter_eq_self]
  intro e he
  simpa using h e he

/-- On a directory of removable entries without an entry `overrides`, an
iteration of the first loop erases the entry it visits. -/
theorem removeStep_eq_erase (x : String) (es : List (String × Node))
    (hrem : ∀ e ∈ es, removable e.2 = true) (hno : ∀ e ∈ es, e.1 ≠ OVERRIDES) :
    removeStep es x = eraseEntry x es := by
  by_cases ho : x = OVERRIDES
  · subst ho
    simp [removeStep, eraseEntry_absent _ es hno]
  · simp only [removeStep, ne_eq, ho, not_false_eq_true, if_true, removeEntry]
    cases hg : getEntry x es with
    | none => simp [eraseEntry_absent _ es (getEntry_none x es hg)]
    | some n =>
      have hn := hrem _ (getEntry_mem x n es hg)
      cases n with
      | file content => rfl
      | dir es1 =>
        cases es1 with
        | nil => rfl
        | cons a t => simp [removable] at hn

theorem foldl_removeStep (names : List String) : ∀ es : List (String × Node),
    (∀ e ∈ es, removable e.2 = true) → (∀ e ∈ es, e.1 ≠ OVERRIDES) →
    names.foldl removeStep es = es.filter fun e => decide (e.1 ∉ names) := by
  induction names with
  | nil => intro es _ _; simp
  | cons x rest ih =>
    intro es hrem hno
    rw [List.foldl_cons, removeStep_eq_erase x es hrem hno]
    have hsub : ∀ e ∈ eraseEntry x es, e ∈ es := fun e he => (List.mem_filter.mp he).1
    rw [ih _ (fun e he => hrem e (hsub e he)) (fun e he => hno e (hsub e he))]
    simp only [eraseEntry, List.filter_filter]
    congr 1
    funext e
    by_cases h1 : e.1 = x <;> simp [h1, eq_comm]

theorem mem_insertName (x y : String) (l : List String) :
    y ∈ insertName x l ↔ y = x ∨ y ∈ l := by
  induction l with
  | nil => simp [insertName]
  | cons z zs ih =>
    by_cases h : ltChars x.data z.data = true
    · simp [insertName, h]
    · have hins : insertName x (z :: zs) = z :: insertName x zs := by
        simp [insertName, h]
      rw [hins, List.mem_cons, List.mem_cons, ih]
      tauto

theorem mem_sortNames (y : String) (l : List String) : y ∈ sortNames l ↔ y ∈ l := by
  induction l with
  | nil => simp [sortNames]
  | cons z zs ih => simp [sortNames, mem_insertName, ih]

/-- C8, amended: when the pack directory has no entry `overrides` and all
its entries are regular files or empty directories, the clean-up deletes
every one of them: the pack directory is left empty, the rest of the
filesystem is as before, and the tree is unchanged only when the pack
directory was empty already. -/
theorem cleanUp_without_overrides (packDir : String) (fs : Node)
    (es : List (String × Node))
    (hdir : fs.lookup (resolve packDir) = some (Node.dir es))
    (hnames : ∀ e ∈ es, isFileName e.1)
    (hno : ∀ e ∈ es, e.1 ≠ OVERRIDES)
    (hrem : ∀ e ∈ es, removable e.2 = true) :
    cleanUp packDir fs = some (Node.withEntries (resolve packDir) [] fs) ∧
    (Node.withEntries (resolve packDir) [] fs).lookup (resolve packDir) = some (Node.dir []) ∧
    (Node.withEntries (resolve packDir) [] fs = fs ↔ es = []) := by
  have hlook := lookup_withEntries [] _ fs es hdir
  have hsorted : ∀ x ∈ sortNames (es.map Prod.fst), isFileName x := by
    intro x hx
    rw [mem_sortNames] at hx
    obtain ⟨e, he, rfl⟩ := List.mem_map.mp hx
    exact hnames e he
  have hempty : (sortNames (es.map Prod.fst)).foldl removeStep es = [] := by
    rw [foldl_removeStep _ es hrem hno, List.filter_eq_nil_iff]
    intro e he
    have : e.1 ∈ sortNames (es.map Prod.fst) :=
      (mem_sortNames _ _).mpr (List.mem_map.mpr ⟨e, he, rfl⟩)
    simpa using this
  have hfirst := removeOthers_eq packDir _ fs es hdir hsorted
  rw [hempty] at hfirst
  have hover : isFileName OVERRIDES := by decide
  have hpath := resolve_join_name packDir OVERRIDES hover
  have hnone : (Node.withEntries (resolve packDir) [] fs).lookup
      (resolve packDir ++ [OVERRIDES]) = none := by
    rw [lookup_append, hlook]
    simp [lookup_cons_dir, getEntry]
  have hlast : (resolve packDir ++ [OVERRIDES]).getLast? = some OVERRIDES := by simp
  have hdrop : (resolve packDir ++ [OVERRIDES]).dropLast = resolve packDir := by simp
  refine ⟨?_, hlook, ?_⟩
  · simp only [cleanUp, osReadDir, hdir, hfirst, hpath, hnone, osRemove, hlast, hdrop,
      atDir_eq_withEntries _ _ _ [] hlook]
    simp [removeEntry, getEntry, Except.map, ignoreErr]
  · constructor
    · intro h
      rw [h, hdir] at hlook
      simpa using hlook
    · intro h
      subst h
      exact withEntries_self _ fs [] hdir

/-- Witness of C8 amended: the pack directory holding one regular file is
emptied. -/
theorem cleanUp_without_overrides_witness :
    cleanUp "pack" normalizedPack = some (Node.dir [("pack", Node.dir [])]) :=
  (cleanUp_without_overrides "pack" normalizedPack [("options.txt", Node.file "fov:90")]
    rfl (by decide) (by decide) (by decide)).1

/-! ## `path.Dir` of a cleaned path -/

theorem dirPart_noSlash (b : List Char) (hb : '/' ∉ b) : dirPart b = [] := by
  have hall : ∀ a ∈ b.reverse, (fun c : Char => decide (c ≠ '/')) a = true := by
    intro a ha
    have : a ≠ '/' := fun h => hb (h ▸ List.mem_reverse.mp ha)
    simpa using this
  simp only [dirPart, List.reverse_eq_nil_iff, List.dropWhile_eq_nil_iff]
  exact hall

theorem dirPart_append (a b : List Char) (hb : '/' ∉ b) :
    dirPart (a ++ '/' :: b) = a ++ ['/'] := by
  have hall : ∀ x ∈ b.reverse, (fun c : Char => decide (c ≠ '/')) x = true := by
    intro x hx
    have : x ≠ '/' := fun h => hb (h ▸ List.mem_reverse.mp hx)
    simpa using this
  have hrev : (a ++ '/' :: b).reverse = b.reverse ++ '/' :: a.reverse := by simp
  simp only [dirPart, hrev, List.dropWhile_append_of_pos hall]
  simp [List.dropWhile]

theorem joinSlash_concat (F : List (List Char)) (l : List Char) :
    joinSlash (F ++ [l]) = if F = [] then l else joinSlash F ++ '/' :: l := by
  induction F with
  | nil => rfl
  | cons a rest ih =>
    cases rest with
    | nil => simp [joinSlash]
    | cons b rest1 =>
      simp only [List.cons_append, joinSlash] at ih ⊢
      simp [ih]

/-- The shape of a cleaned rooted path. -/
theorem cleanChars_rooted (t : List Char) :
    cleanChars ('/' :: t) = '/' :: joinSlash (cleanElems true (splitSlash ('/' :: t))) ∧
    (∀ e ∈ cleanElems true (splitSlash ('/' :: t)), normalElem e) ∧
    (∀ e ∈ cleanElems true (splitSlash ('/' :: t)), '/' ∉ e) := by
  obtain ⟨k1, _, hnorm⟩ := foldl_cleanStep_rel (splitSlash ('/' :: t)) [] 0 (by simp)
  have hslash : ∀ e ∈ (splitSlash ('/' :: t)).foldl (cleanStep true) [], '/' ∉ e :=
    foldl_cleanStep_mem true _ _ [] (by simp) (mem_splitSlash_noSlash _)
  refine ⟨by simp [cleanChars], ?_, ?_⟩
  · intro e he
    exact hnorm e (by simpa [cleanElems] using he)
  · intro e he
    exact hslash e (by simpa [cleanElems] using he)

/-- The shape of a cleaned unrooted path: leading `..` elements, then the
elements the operating system resolves it to. -/
theorem cleanChars_unrooted (c : Char) (t : List Char) (hc : c ≠ '/') :
    ∃ k : Nat,
      cleanChars (c :: t) =
        (if joinSlash (List.replicate k ['.', '.'] ++ cleanElems true (splitSlash (c :: t))) = []
          then ['.']
          else joinSlash
            (List.replicate k ['.', '.'] ++ cleanElems true (splitSlash (c :: t)))) ∧
      (∀ e ∈ cleanElems true (splitSlash (c :: t)), normalElem e) ∧
      (∀ e ∈ cleanElems true (splitSlash (c :: t)), '/' ∉ e) := by
  obtain ⟨k1, hrel, hnorm⟩ := foldl_cleanStep_rel (splitSlash (c :: t)) [] 0 (by simp)
  simp only [List.replicate_zero, List.append_nil] at hrel
  have hslash : ∀ e ∈ (splitSlash (c :: t)).foldl (cleanStep true) [], '/' ∉ e :=
    foldl_cleanStep_mem true _ _ [] (by simp) (mem_splitSlash_noSlash _)
  have hF : cleanElems false (splitSlash (c :: t)) =
      List.replicate k1 ['.', '.'] ++ cleanElems true (splitSlash (c :: t)) := by
    simp [cleanElems, hrel]
  refine ⟨k1, ?_, ?_, ?_⟩
  · rw [← hF]
    simp [cleanChars, hc]
  · intro e he
    exact hnorm e (by simpa [cleanElems] using he)
  · intro e he
    exact hslash e (by simpa [cleanElems] using he)

theorem cleanElems_append_empty (Y : List (List Char)) :
    cleanElems true (Y ++ [[]]) = cleanElems true Y := by
  simp [cleanElems, List.foldl_append, cleanStep]

theorem cleanElems_all_dots (X : List (List Char)) (hX : ∀ e ∈ X, e = ['.', '.']) :
    cleanElems true X = [] := by
  rw [List.eq_replicate_of_mem hX]
  simp [cleanElems, foldl_cleanStep_dots]

theorem cleanElems_dropLast_dots (k : Nat) (E : List (List Char))
    (hE : ∀ e ∈ E, normalElem e) :
    cleanElems true (List.replicate k ['.', '.'] ++ E).dropLast = E.dropLast := by
  by_cases hnil : E = []
  · subst hnil
    simp only [List.append_nil, List.dropLast_nil]
    apply cleanElems_all_dots
    intro e he
    exact (List.mem_replicate.mp (List.mem_of_mem_dropLast he)).2
  · rw [List.dropLast_append_of_ne_nil _ hnil]
    exact cleanElems_dots_normal k _ (fun e he => hE e (List.mem_of_mem_dropLast he))

/-- The elements of a cleaned path seen as a `/`-joined list: what the
operating system resolves the part before the last `/` to. -/
theorem cleanElems_dirPart_joinSlash (F : List (List Char)) (hF : ∀ e ∈ F, '/' ∉ e) :
    cleanElems true (splitSlash (dirPart (joinSlash F))) = cleanElems true F.dropLast := by
  rcases List.eq_nil_or_concat F with h | ⟨L, l, h⟩
  · subst h
    decide
  · rw [List.concat_eq_append] at h
    subst h
    have hl : '/' ∉ l := hF l (by simp)
    have hL : ∀ e ∈ L, '/' ∉ e := fun e he => hF e (by simp [he])
    rw [joinSlash_concat, List.dropLast_concat]
    by_cases hnil : L = []
    · subst hnil
      rw [if_pos rfl, dirPart_noSlash l hl]
      decide
    · rw [if_neg hnil, dirPart_append _ _ hl]
      have h1 : joinSlash L ++ ['/'] = joinSlash L ++ '/' :: [] := rfl
      have h4 : splitSlash [] = [[]] := rfl
      rw [h1, splitSlash_append_slash, splitSlash_joinSlash L hnil hL, h4]
      exact cleanElems_append_empty L

/-- The operating system resolves the `path.Dir` of a cleaned path to the
parent of what it resolves the path to. -/
theorem cleanElems_dirPart (b : List Char) :
    cleanElems true (splitSlash (dirPart (cleanChars b))) =
      (cleanElems true (splitSlash b)).dropLast := by
  cases b with
  | nil => decide
  | cons c t =>
    by_cases hc : c = '/'
    · subst hc
      obtain ⟨hcl, hn, hs⟩ := cleanChars_rooted t
      rw [hcl]
      generalize cleanElems true (splitSlash ('/' :: t)) = E at hn hs
      rcases List.eq_nil_or_concat E with h | ⟨L, l, h⟩
      · subst h
        decide
      · rw [List.concat_eq_append] at h
        subst h
        have hl : '/' ∉ l := hs l (by simp)
        have hL : ∀ e ∈ L, '/' ∉ e := fun e he => hs e (by simp [he])
        have hLn : ∀ e ∈ L, normalElem e := fun e he => hn e (by simp [he])
        rw [joinSlash_concat, List.dropLast_concat]
        by_cases hnil : L = []
        · subst hnil
          rw [if_pos rfl]
          have h1 : '/' :: l = [] ++ '/' :: l := rfl
          rw [h1, dirPart_append _ _ hl]
          decide
        · rw [if_neg hnil]
          have h1 : '/' :: (joinSlash L ++ '/' :: l) = ('/' :: joinSlash L) ++ '/' :: l := rfl
          have h2 : ('/' :: joinSlash L) ++ ['/'] = ('/' :: joinSlash L) ++ '/' :: [] := rfl
          have h3 : splitSlash ('/' :: joinSlash L) = [] :: splitSlash (joinSlash L) := by
            simp [splitSlash]
          have h4 : splitSlash [] = [[]] := rfl
          rw [h1, dirPart_append _ _ hl, h2, splitSlash_append_slash, h3,
            splitSlash_joinSlash L hnil hL, List.cons_append, cleanElems_nil_cons, h4,
            cleanElems_append_empty]
          exact cleanElems_dots_normal 0 L hLn
    · obtain ⟨k, hcl, hn, hs⟩ := cleanChars_unrooted c t hc
      rw [hcl]
      generalize cleanElems true (splitSlash (c :: t)) = E at hn hs
      have hFs : ∀ e ∈ List.replicate k ['.', '.'] ++ E, '/' ∉ e := by
        intro e he
        rcases List.mem_append.mp he with h | h
        · rw [(List.mem_replicate.mp h).2]
          decide
        · exact hs e h
      have hFne : ∀ e ∈ List.replicate k ['.', '.'] ++ E, e ≠ [] := by
        intro e he
        rcases List.mem_append.mp he with h | h
        · rw [(List.mem_replicate.mp h).2]
          simp
        · exact (hn e h).1
      by_cases hJ : joinSlash (List.replicate k ['.', '.'] ++ E) = []
      · rw [if_pos hJ]
        have hnil := joinSlash_eq_nil _ hFne hJ
        rw [(List.append_eq_nil.mp hnil).2]
        decide
      · rw [if_neg hJ, cleanElems_dirPart_joinSlash _ hFs]
        exact cleanElems_dropLast_dots k E hn

/-- The directory `unzip` asks `os.MkdirAll` for is the parent of the file it
creates. -/
theorem resolve_pathDir_join (elem : List String)
    (hne : ¬ ((elem.map fun e => e.data.length).sum = 0)) :
    resolve (pathDir (pathJoin elem)) = (resolve (pathJoin elem)).dropLast := by
  simp only [resolve, pathDir, pathJoin, hne, if_false, cleanElems_cleanChars,
    cleanElems_dirPart, List.map_dropLast]

/-! ## The destination path of a safe entry name -/

theorem foldl_cleanStep_noDots (r : Bool) : ∀ (Y st : List (List Char)),
    ['.', '.'] ∉ Y →
    Y.foldl (cleanStep r) st = (Y.filter fun c => decide (normalElem c)).reverse ++ st := by
  intro Y
  induction Y with
  | nil => intro st _; rfl
  | cons y Y ih =>
    intro st hY
    have hy : y ≠ ['.', '.'] := fun h => hY (by simp [h])
    have hrest : ['.', '.'] ∉ Y := fun h => hY (List.mem_cons_of_mem _ h)
    rw [List.foldl_cons, ih _ hrest]
    by_cases hn : normalElem y
    · rw [cleanStep_normal r st y hn]
      simp [List.filter_cons, hn]
    · have hstep : cleanStep r st y = st := by
        unfold normalElem at hn
        by_cases h1 : y = []
        · simp [cleanStep, h1]
        · by_cases h2 : y = ['.']
          · simp [cleanStep, h2]
          · exact absurd ⟨h1, h2, hy⟩ hn
      rw [hstep]
      simp [List.filter_cons, hn]

theorem safeName_ne_empty (name : String) (h : safeName name) : name.data ≠ [] := by
  intro hnil
  obtain ⟨_, _, c, hc, hnorm⟩ := h
  rw [hnil] at hc
  simp only [splitSlash, List.mem_singleton] at hc
  exact hnorm.1 hc

theorem join_length_ne_zero (dest name : String) (h : name.data ≠ []) :
    ¬ ((List.map (fun e : String => e.data.length) [dest, name]).sum = 0) := by
  have hpos : 0 < name.data.length := List.length_pos.mpr h
  simp only [List.map_cons, List.map_nil, List.sum_cons, List.sum_nil]
  omega

/-- The file written for an entry with a safe name lies strictly below the
destination: its path is the resolved destination followed by the elements
of the name. -/
theorem destPath_below (dest : String) (e : ZipFile) (h : safeName e.Name) :
    ∃ r : Path, r ≠ [] ∧ destPath dest e = resolve dest ++ r := by
  have hne := safeName_ne_empty _ h
  obtain ⟨_, hdots, c, hc, hnorm⟩ := h
  refine ⟨((splitSlash e.Name.data).filter fun c => decide (normalElem c)).map String.mk,
    ?_, ?_⟩
  · intro hnil
    have hmem : c ∈ (splitSlash e.Name.data).filter fun c => decide (normalElem c) :=
      List.mem_filter.mpr ⟨hc, by simpa using hnorm⟩
    rw [List.map_eq_nil_iff] at hnil
    rw [hnil] at hmem
    cases hmem
  · simp only [destPath, resolve, pathJoin, join_length_ne_zero dest e.Name hne, if_false,
      cleanElems_cleanChars]
    by_cases hp : dest.data = []
    · have hbuf : joinBuf [] [dest, e.Name] = e.Name.data := by
        simp [joinBuf, hp, hne]
      rw [hbuf, hp]
      simp [cleanElems, foldl_cleanStep_noDots true _ [] hdots, splitSlash, cleanStep]
    · have hbuf : joinBuf [] [dest, e.Name] = dest.data ++ '/' :: e.Name.data := by
        simp [joinBuf, hp]
      rw [hbuf, splitSlash_append_slash]
      simp [cleanElems, List.foldl_append, foldl_cleanStep_noDots true _ _ hdots]

/-! ## What `os.MkdirAll` and `os.Create` add to the tree -/

theorem lookup_dir_nil (x : String) (r : Path) : (Node.dir []).lookup (x :: r) = none := by
  simp [lookup_cons_dir, getEntry]

theorem cons_initial (c : String) (q cs : Path) (h : q <+: cs) : c :: q <+: c :: cs := by
  obtain ⟨t, rfl⟩ := h
  exact ⟨t, rfl⟩

/-- `os.MkdirAll` succeeds, and its path is a directory afterwards, when no
initial segment of the path is a regular file. -/
theorem mkdirAll_ok : ∀ (p : Path) (fs : Node),
    (∀ q : Path, q <+: p → ∀ c, fs.lookup q ≠ some (Node.file c)) →
    ∃ fs1 es, Node.mkdirAll p fs = Except.ok fs1 ∧ fs1.lookup p = some (Node.dir es) := by
  intro p
  induction p with
  | nil =>
    intro fs h
    cases fs with
    | file content => exact absurd (lookup_nil _) (h [] (List.prefix_refl _) content)
    | dir es => exact ⟨Node.dir es, es, rfl, lookup_nil _⟩
  | cons c cs ih =>
    intro fs h
    cases fs with
    | file content => exact absurd (lookup_nil _) (h [] ( List.nil_prefix) content)
    | dir es =>
      cases hg : getEntry c es with
      | none =>
        obtain ⟨child1, es1, hrun, hlook⟩ := ih (Node.dir []) (by
          intro q _ content hq
          cases q with
          | nil => simp [lookup_nil] at hq
          | cons x r => simp [lookup_dir_nil] at hq)
        refine ⟨Node.dir (setEntry c child1 es), es1, ?_, ?_⟩
        · simp [Node.mkdirAll, hg, hrun, Except.map]
        · simp [lookup_cons_dir, getEntry_setEntry, hlook]
      | some child =>
        obtain ⟨child1, es1, hrun, hlook⟩ := ih child (by
          intro q hq content hfile
          refine h (c :: q) (cons_initial c q cs hq) content ?_
          simp [lookup_cons_dir, hg, hfile])
        refine ⟨Node.dir (setEntry c child1 es), es1, ?_, ?_⟩
        · simp [Node.mkdirAll, hg, hrun, Except.map]
        · simp [lookup_cons_dir, getEntry_setEntry, hlook]

/-- A directory found after `os.MkdirAll` was there before or is an initial
segment of the created path. -/
theorem mkdirAll_dir_origin : ∀ (p : Path) (fs fs1 : Node) (q : Path)
    (es1 : List (String × Node)),
    Node.mkdirAll p fs = Except.ok fs1 → fs1.lookup q = some (Node.dir es1) →
    (∃ es, fs.lookup q = some (Node.dir es)) ∨ q <+: p := by
  intro p
  induction p with
  | nil =>
    intro fs fs1 q es1 hrun hq
    cases fs with
    | file content => simp [Node.mkdirAll] at hrun
    | dir es =>
      simp only [Node.mkdirAll, Except.ok.injEq] at hrun
      subst hrun
      exact Or.inl ⟨es1, hq⟩
  | cons c cs ih =>
    intro fs fs1 q es1 hrun hq
    cases fs with
    | file content => simp [Node.mkdirAll] at hrun
    | dir es =>
      cases q with
      | nil => exact Or.inl ⟨es, lookup_nil _⟩
      | cons x r =>
        simp only [Node.mkdirAll] at hrun
        cases hg : getEntry c es with
        | none =>
          simp only [hg] at hrun
          cases hsub : Node.mkdirAll cs (Node.dir []) with
          | error e => simp [hsub, Except.map] at hrun
          | ok child1 =>
            simp only [hsub, Except.map, Except.ok.injEq] at hrun
            subst hrun
            rw [lookup_cons_dir, getEntry_setEntry] at hq
            by_cases hx : c = x
            · subst hx
              simp only [if_true, Option.some_bind] at hq
              rcases ih (Node.dir []) child1 r es1 hsub hq with ⟨es0, h0⟩ | hpre
              · cases r with
                | nil => exact Or.inr ⟨cs, rfl⟩
                | cons y r1 => simp [lookup_dir_nil] at h0
              · exact Or.inr (cons_initial c r cs hpre)
            · simp only [hx, if_false] at hq
              exact Or.inl ⟨es1, by rw [lookup_cons_dir]; exact hq⟩
        | some child =>
          simp only [hg] at hrun
          cases hsub : Node.mkdirAll cs child with
          | error e => simp [hsub, Except.map] at hrun
          | ok child1 =>
            simp only [hsub, Except.map, Except.ok.injEq] at hrun
            subst hrun
            rw [lookup_cons_dir, getEntry_setEntry] at hq
            by_cases hx : c = x
            · subst hx
              simp only [if_true, Option.some_bind] at hq
              rcases ih child child1 r es1 hsub hq with ⟨es0, h0⟩ | hpre
              · exact Or.inl ⟨es0, by simp [lookup_cons_dir, hg, h0]⟩
              · exact Or.inr (cons_initial c r cs hpre)
            · simp only [hx, if_false] at hq
              exact Or.inl ⟨es1, by rw [lookup_cons_dir]; exact hq⟩

/-- A regular file found after `os.MkdirAll` was there before. -/
theorem mkdirAll_file_origin : ∀ (p : Path) (fs fs1 : Node) (q : Path) (content : String),
    Node.mkdirAll p fs = Except.ok fs1 → fs1.lookup q = some (Node.file content) →
    fs.lookup q = some (Node.file content) := by
  intro p
  induction p with
  | nil =>
    intro fs fs1 q content hrun hq
    cases fs with
    | file content1 => simp [Node.mkdirAll] at hrun
    | dir es =>
      simp only [Node.mkdirAll, Except.ok.injEq] at hrun
      subst hrun
      exact hq
  | cons c cs ih =>
    intro fs fs1 q content hrun hq
    cases fs with
    | file content1 => simp [Node.mkdirAll] at hrun
    | dir es =>
      simp only [Node.mkdirAll] at hrun
      cases hg : getEntry c es with
      | none =>
        simp only [hg] at hrun
        cases hsub : Node.mkdirAll cs (Node.dir []) with
        | error e => simp [hsub, Except.map] at hrun
        | ok child1 =>
          simp only [hsub, Except.map, Except.ok.injEq] at hrun
          subst hrun
          cases q with
          | nil => simp [lookup_nil] at hq
          | cons x r =>
            rw [lookup_cons_dir, getEntry_setEntry] at hq
            by_cases hx : c = x
            · subst hx
              simp only [if_true, Option.some_bind] at hq
              have h0 := ih (Node.dir []) child1 r content hsub hq
              cases r with
              | nil => simp [lookup_nil] at h0
              | cons y r1 => simp [lookup_dir_nil] at h0
            · simp only [hx, if_false] at hq
              rw [lookup_cons_dir]
              exact hq
      | some child =>
        simp only [hg] at hrun
        cases hsub : Node.mkdirAll cs child with
        | error e => simp [hsub, Except.map] at hrun
        | ok child1 =>
          simp only [hsub, Except.map, Except.ok.injEq] at hrun
          subst hrun
          cases q with
          | nil => simp [lookup_nil] at hq
          | cons x r =>
            rw [lookup_cons_dir, getEntry_setEntry] at hq
            by_cases hx : c = x
            · subst hx
              simp only [if_true, Option.some_bind] at hq
              have h0 := ih child child1 r content hsub hq
              simp [lookup_cons_dir, hg, h0]
            · simp only [hx, if_false] at hq
              rw [lookup_cons_dir]
              exact hq

/-- Creating the file `last` in the directory `parent` succeeds when
`parent` is a directory and `last` is not a directory of it. -/
theorem atDir_putFile_ok (last content : String) (parent : Path) (fs : Node)
    (es : List (String × Node)) (hparent : fs.lookup parent = some (Node.dir es))
    (hfree : ∀ es1, fs.lookup (parent ++ [last]) ≠ some (Node.dir es1)) :
    ∃ fs1, Node.atDir (putFile last content) parent fs = Except.ok fs1 := by
  rw [atDir_eq_withEntries _ _ fs es hparent]
  have hlook : fs.lookup (parent ++ [last]) = getEntry last es := by
    rw [lookup_append, hparent]
    simp only [Option.some_bind, lookup_cons_dir]
    cases getEntry last es <;> simp [lookup_nil]
  cases hg : getEntry last es with
  | none =>
    exact ⟨Node.withEntries parent (setEntry last (Node.file content) es) fs,
      by simp [putFile, hg, Except.map]⟩
  | some child =>
    cases child with
    | file content1 =>
      exact ⟨Node.withEntries parent (setEntry last (Node.file content) es) fs,
        by simp [putFile, hg, Except.map]⟩
    | dir es1 =>
      rw [hg] at hlook
      exact absurd hlook (hfree es1)

/-- A regular file found after the creation of `parent/last` is that file or
was there before. -/
theorem atDir_putFile_file_origin (last content : String) : ∀ (parent : Path)
    (fs fs1 : Node) (q : Path) (c : String),
    Node.atDir (putFile last content) parent fs = Except.ok fs1 →
    fs1.lookup q = some (Node.file c) →
    q = parent ++ [last] ∨ fs.lookup q = some (Node.file c) := by
  intro parent
  induction parent with
  | nil =>
    intro fs fs1 q c hrun hq
    cases fs with
    | file content1 => simp [Node.atDir] at hrun
    | dir es =>
      have hset : fs1 = Node.dir (setEntry last (Node.file content) es) := by
        simp only [Node.atDir, putFile] at hrun
        cases hg : getEntry last es with
        | none => simp [hg, Except.map] at hrun; exact hrun.symm
        | some child =>
          cases child with
          | dir es1 => simp [hg, Except.map] at hrun
          | file content1 => simp [hg, Except.map] at hrun; exact hrun.symm
      subst hset
      cases q with
      | nil => simp [lookup_nil] at hq
      | cons x r =>
        rw [lookup_cons_dir, getEntry_setEntry] at hq
        by_cases hx : last = x
        · subst hx
          simp only [if_true, Option.some_bind] at hq
          cases r with
          | nil => exact Or.inl rfl
          | cons y r1 => simp [lookup_cons_file] at hq
        · simp only [hx, if_false] at hq
          exact Or.inr (by rw [lookup_cons_dir]; exact hq)
  | cons d rest ih =>
    intro fs fs1 q c hrun hq
    cases fs with
    | file content1 => simp [Node.atDir] at hrun
    | dir es =>
      simp only [Node.atDir] at hrun
      cases hg : getEntry d es with
      | none => simp [hg] at hrun
      | some child =>
        simp only [hg] at hrun
        cases hsub : Node.atDir (putFile last content) rest child with
        | error e => simp [hsub, Except.map] at hrun
        | ok child1 =>
          simp only [hsub, Except.map, Except.ok.injEq] at hrun
          subst hrun
          cases q with
          | nil => simp [lookup_nil] at hq
          | cons x r =>
            rw [lookup_cons_dir, getEntry_setEntry] at hq
            by_cases hx : d = x
            · subst hx
              simp only [if_true, Option.some_bind] at hq
              rcases ih child child1 r c hsub hq with h | h
              · exact Or.inl (by simp [h])
              · exact Or.inr (by simp [lookup_cons_dir, hg, h])
            · simp only [hx, if_false] at hq
              exact Or.inr (by rw [lookup_cons_dir]; exact hq)

/-- A directory found after the creation of a file was there before. -/
theorem atDir_putFile_dir_origin (last content : String) : ∀ (parent : Path)
    (fs fs1 : Node) (q : Path) (es1 : List (String × Node)),
    Node.atDir (putFile last content) parent fs = Except.ok fs1 →
    fs1.lookup q = some (Node.dir es1) → ∃ es, fs.lookup q = some (Node.dir es) := by
  intro parent
  induction parent with
  | nil =>
    intro fs fs1 q es1 hrun hq
    cases fs with
    | file content1 => simp [Node.atDir] at hrun
    | dir es =>
      have hset : fs1 = Node.dir (setEntry last (Node.file content) es) := by
        simp only [Node.atDir, putFile] at hrun
        cases hg : getEntry last es with
        | none => simp [hg, Except.map] at hrun; exact hrun.symm
        | some child =>
          cases child with
          | dir es2 => simp [hg, Except.map] at hrun
          | file content1 => simp [hg, Except.map] at hrun; exact hrun.symm
      subst hset
      cases q with
      | nil => exact ⟨es, lookup_nil _⟩
      | cons x r =>
        rw [lookup_cons_dir, getEntry_setEntry] at hq
        by_cases hx : last = x
        · subst hx
          simp only [if_true, Option.some_bind] at hq
          cases r with
          | nil => simp [lookup_nil] at hq
          | cons y r1 => simp [lookup_cons_file] at hq
        · simp only [hx, if_false] at hq
          exact ⟨es1, by rw [lookup_cons_dir]; exact hq⟩
  | cons d rest ih =>
    intro fs fs1 q es1 hrun hq
    cases fs with
    | file content1 => simp [Node.atDir] at hrun
    | dir es =>
      simp only [Node.atDir] at hrun
      cases hg : getEntry d es with
      | none => simp [hg] at hrun
      | some child =>
        simp only [hg] at hrun
        cases hsub : Node.atDir (putFile last content) rest child with
        | error e => simp [hsub, Except.map] at hrun
        | ok child1 =>
          simp only [hsub, Except.map, Except.ok.injEq] at hrun
          subst hrun
          cases q with
          | nil => exact ⟨es, lookup_nil _⟩
          | cons x r =>
            rw [lookup_cons_dir, getEntry_setEntry] at hq
            by_cases hx : d = x
            · subst hx
              simp only [if_true, Option.some_bind] at hq
              obtain ⟨es0, h0⟩ := ih child child1 r es1 hsub hq
              exact ⟨es0, by simp [lookup_cons_dir, hg, h0]⟩
            · simp only [hx, if_false] at hq
              exact ⟨es1, by rw [lookup_cons_dir]; exact hq⟩

/-- An empty or missing destination has no regular file on the way to it and
nothing below it. -/
theorem destEmpty_spec : ∀ (d : Path) (fs : Node), destEmpty d fs = true →
    (∀ q : Path, q <+: d → ∀ c, fs.lookup q ≠ some (Node.file c)) ∧
    (∀ r : Path, r ≠ [] → fs.lookup (d ++ r) = none) := by
  intro d
  induction d with
  | nil =>
    intro fs h
    cases fs with
    | file content => simp [destEmpty] at h
    | dir es =>
      have hes : es = [] := by simpa [destEmpty] using h
      subst hes
      refine ⟨?_, ?_⟩
      · intro q hq c
        rw [List.prefix_nil.mp hq, lookup_nil]
        simp
      · intro r hr
        cases r with
        | nil => exact absurd rfl hr
        | cons x r1 => exact lookup_dir_nil x r1
  | cons c cs ih =>
    intro fs h
    cases fs with
    | file content => simp [destEmpty] at h
    | dir es =>
      cases hg : getEntry c es with
      | none =>
        refine ⟨?_, ?_⟩
        · intro q hq content
          cases q with
          | nil => simp [lookup_nil]
          | cons x r =>
            have hx : x = c := by
              obtain ⟨t, ht⟩ := hq
              simp only [List.cons_append, List.cons.injEq] at ht
              exact ht.1
            subst hx
            simp [lookup_cons_dir, hg]
        · intro r _
          simp [lookup_cons_dir, hg]
      | some child =>
        have hchild : destEmpty cs child = true := by simpa [destEmpty, hg] using h
        obtain ⟨h1, h2⟩ := ih child hchild
        refine ⟨?_, ?_⟩
        · intro q hq content
          cases q with
          | nil => simp [lookup_nil]
          | cons x r =>
            obtain ⟨t, ht⟩ := hq
            simp only [List.cons_append, List.cons.injEq] at ht
            obtain ⟨hx, hr⟩ := ht
            subst hx
            simpa [lookup_cons_dir, hg] using h1 r ⟨t, hr⟩ content
        · intro r hr
          simpa [lookup_cons_dir, hg] using h2 r hr

/-! ## One iteration of `unzip`, seen from the tree -/

theorem append_not_initial (d r : Path) (hr : r ≠ []) : ¬ (d ++ r <+: d) := by
  intro h
  have hlen := h.length_le
  rw [List.length_append] at hlen
  have : 0 < r.length := List.length_pos.mpr hr
  omega

theorem initial_dropLast (q p : Path) (hp : p ≠ []) (h : q <+: p.dropLast) :
    q <+: p ∧ q ≠ p := by
  refine ⟨h.trans ( List.dropLast_prefix p), ?_⟩
  intro heq
  subst heq
  have hlen := h.length_le
  rw [List.length_dropLast] at hlen
  have : 0 < q.length := List.length_pos.mpr hp
  omega

/-- The creation of the file of an iteration succeeds when no regular file
lies on the way to it and no directory is in its place. -/
theorem iteration_ok (name dirName : String) (fs : Node)
    (hdir : resolve dirName = (resolve name).dropLast) (hne : resolve name ≠ [])
    (hfiles : ∀ q : Path, q <+: resolve name → ∀ c, fs.lookup q ≠ some (Node.file c))
    (hnodir : ∀ es, fs.lookup (resolve name) ≠ some (Node.dir es)) :
    ∃ s3, osCreate name (ignoreErr (osMkdirAll dirName fs) fs) = Except.ok s3 := by
  obtain ⟨fs2, es2, hmk, hparent⟩ := mkdirAll_ok (resolve dirName) fs (by
    intro q hq c
    rw [hdir] at hq
    exact hfiles q (initial_dropLast q _ hne hq).1 c)
  obtain ⟨last, hlast⟩ : ∃ last, (resolve name).getLast? = some last := by
    cases h : (resolve name).getLast? with
    | none => exact absurd (List.getLast?_eq_none_iff.mp h) hne
    | some last => exact ⟨last, rfl⟩
  have hpath := dropLast_append_last _ last hlast
  have hfree : ∀ es1, fs2.lookup ((resolve name).dropLast ++ [last]) ≠ some (Node.dir es1) := by
    intro es1 h
    rw [hpath] at h
    rcases mkdirAll_dir_origin _ fs fs2 _ es1 hmk h with ⟨es, h0⟩ | hpre
    · exact hnodir es h0
    · rw [hdir] at hpre
      exact (initial_dropLast _ _ hne hpre).2 rfl
  rw [hdir] at hparent
  obtain ⟨s3, hs3⟩ := atDir_putFile_ok last "" _ fs2 es2 hparent hfree
  refine ⟨s3, ?_⟩
  simp only [osMkdirAll, hmk, ignoreErr, osCreate, hlast]
  exact hs3

/-- A regular file found after an iteration is the file it wrote or was
there before. -/
theorem iteration_file_origin (name dirName content : String) (fs s3 : Node) (q : Path)
    (c : String)
    (hc : osCreate name (ignoreErr (osMkdirAll dirName fs) fs) = Except.ok s3)
    (hq : (ignoreErr (osWrite name content s3) s3).lookup q = some (Node.file c)) :
    q = resolve name ∨ fs.lookup q = some (Node.file c) := by
  simp only [osCreate] at hc
  cases hl : (resolve name).getLast? with
  | none => simp [hl] at hc
  | some last =>
    simp only [hl] at hc
    have hpath := dropLast_append_last _ last hl
    have h3 : q = resolve name ∨ s3.lookup q = some (Node.file c) := by
      cases hw : osWrite name content s3 with
      | error err =>
        rw [hw] at hq
        exact Or.inr hq
      | ok s4 =>
        rw [hw] at hq
        simp only [osWrite, hl] at hw
        rcases atDir_putFile_file_origin last content _ s3 s4 q c hw hq with h | h
        · exact Or.inl (h.trans hpath)
        · exact Or.inr h
    rcases h3 with h | h
    · exact Or.inl h
    · rcases atDir_putFile_file_origin last "" _ _ s3 q c hc h with h2 | h2
      · exact Or.inl (h2.trans hpath)
      · cases hm : osMkdirAll dirName fs with
        | error err =>
          rw [hm] at h2
          exact Or.inr h2
        | ok fs2 =>
          rw [hm] at h2
          exact Or.inr (mkdirAll_file_origin _ fs fs2 q c hm h2)

/-- A directory found after an iteration was there before or is a proper
initial segment of the path of the file it wrote. -/
theorem iteration_dir_origin (name dirName content : String) (fs s3 : Node) (q : Path)
    (es1 : List (String × Node))
    (hdir : resolve dirName = (resolve name).dropLast) (hne : resolve name ≠ [])
    (hc : osCreate name (ignoreErr (osMkdirAll dirName fs) fs) = Except.ok s3)
    (hq : (ignoreErr (osWrite name content s3) s3).lookup q = some (Node.dir es1)) :
    (∃ es, fs.lookup q = some (Node.dir es)) ∨ (q <+: resolve name ∧ q ≠ resolve name) := by
  simp only [osCreate] at hc
  cases hl : (resolve name).getLast? with
  | none => simp [hl] at hc
  | some last =>
    simp only [hl] at hc
    have h3 : ∃ es, s3.lookup q = some (Node.dir es) := by
      cases hw : osWrite name content s3 with
      | error err =>
        rw [hw] at hq
        exact ⟨es1, hq⟩
      | ok s4 =>
        rw [hw] at hq
        simp only [osWrite, hl] at hw
        exact atDir_putFile_dir_origin last content _ s3 s4 q es1 hw hq
    obtain ⟨es3, h3⟩ := h3
    obtain ⟨es2, h2⟩ := atDir_putFile_dir_origin last "" _ _ s3 q es3 hc h3
    cases hm : osMkdirAll dirName fs with
    | error err =>
      rw [hm] at h2
      exact Or.inl ⟨es2, h2⟩
    | ok fs2 =>
      rw [hm] at h2
      rcases mkdirAll_dir_origin _ fs fs2 q es2 hm h2 with h0 | hpre
      · exact Or.inl h0
      · rw [hdir] at hpre
        exact Or.inr (initial_dropLast q _ hne hpre)

/-- The loop of `unzip` on a non-directory entry whose file is created. -/
theorem unzipLoop_file_run (archives : String → Except Error (List ZipFile)) (dest : String)
    (e : ZipFile) (rest : List ZipFile) (fs s3 : Node) (hfile : e.IsDir = false)
    (hc : osCreate (pathJoin [dest, e.Name])
      (ignoreErr (osMkdirAll (pathDir (pathJoin [dest, e.Name])) fs) fs) = Except.ok s3) :
    unzipLoop (fsSys archives) dest (e :: rest) fs =
      unzipLoop (fsSys archives) dest rest
        (ignoreErr (osWrite (pathJoin [dest, e.Name]) e.Data s3) s3) := by
  have hfst : ∀ (r : Except Error Node) (t : Node), (runFs r t).2 = ignoreErr r t := by
    intro r t
    cases r <;> rfl
  simp only [unzipLoop, hfile, fsSys, hfst]
  rw [hc]
  simp [runFs]

/-! ## `unzip` succeeds on an empty destination -/

/-- The loop of `unzip` returns nil when the entries still to be written
have safe names and paths apart from each other and from the files `S`
written so far, and the tree below the destination holds nothing but those
files and the directories leading to them. -/
theorem unzipLoop_succeeds (archives : String → Except Error (List ZipFile)) (dest : String) :
    ∀ (files : List ZipFile) (fs : Node) (S : List Path),
    (∀ q : Path, q <+: resolve dest → ∀ c, fs.lookup q ≠ some (Node.file c)) →
    (∀ (r : Path) (c : String), r ≠ [] →
      fs.lookup (resolve dest ++ r) = some (Node.file c) → resolve dest ++ r ∈ S) →
    (∀ (r : Path) (es : List (String × Node)), r ≠ [] →
      fs.lookup (resolve dest ++ r) = some (Node.dir es) →
      ∃ P ∈ S, resolve dest ++ r <+: P ∧ resolve dest ++ r ≠ P) →
    (∀ e ∈ files, e.IsDir = false → safeName e.Name) →
    (files.filter fun e => !e.IsDir).Pairwise
      (fun a b => apart (destPath dest a) (destPath dest b)) →
    (∀ e ∈ files, e.IsDir = false → ∀ P ∈ S, apart (destPath dest e) P) →
    ∃ fs1, unzipLoop (fsSys archives) dest files fs = (none, fs1) := by
  intro files
  induction files with
  | nil => intro fs S _ _ _ _ _ _; exact ⟨fs, rfl⟩
  | cons e rest ih =>
    intro fs S hI1 hI2 hI3 hsafe hpair hS
    have hsafeRest : ∀ e1 ∈ rest, e1.IsDir = false → safeName e1.Name :=
      fun e1 h1 => hsafe e1 (List.mem_cons_of_mem _ h1)
    cases hd : e.IsDir with
    | true =>
      rw [unzipLoop_dir _ _ _ _ _ hd]
      refine ih fs S hI1 hI2 hI3 hsafeRest ?_ (fun e1 h1 => hS e1 (List.mem_cons_of_mem _ h1))
      simpa [List.filter_cons, hd] using hpair
    | false =>
      have hpair0 :
          (∀ b ∈ rest.filter (fun e => !e.IsDir),
            apart (destPath dest e) (destPath dest b)) ∧
          (rest.filter fun e => !e.IsDir).Pairwise
            (fun a b => apart (destPath dest a) (destPath dest b)) := by
        simpa [List.filter_cons, hd] using hpair
      have hname := hsafe e (List.mem_cons_self _ _) hd
      obtain ⟨r, hr, hP⟩ := destPath_below dest e hname
      have hPn : resolve (pathJoin [dest, e.Name]) = resolve dest ++ r := hP
      have hne : resolve (pathJoin [dest, e.Name]) ≠ [] := by
        rw [hPn]
        intro h
        exact hr (List.append_eq_nil.mp h).2
      have hdirEq := resolve_pathDir_join [dest, e.Name]
        (join_length_ne_zero dest e.Name (safeName_ne_empty _ hname))
      have hSe := hS e (List.mem_cons_self _ _) hd
      have hfiles : ∀ q : Path, q <+: resolve (pathJoin [dest, e.Name]) →
          ∀ c, fs.lookup q ≠ some (Node.file c) := by
        intro q hq c hfile
        have hD : resolve dest <+: resolve (pathJoin [dest, e.Name]) := by
          rw [hPn]
          exact List.prefix_append _ _
        rcases List.prefix_or_prefix_of_prefix hq hD with h | h
        · exact hI1 q h c hfile
        · obtain ⟨r1, hr1⟩ := h
          subst hr1
          by_cases hnil : r1 = []
          · subst hnil
            exact hI1 _ (by simp) c hfile
          · exact (hSe _ (hI2 r1 c hnil hfile)).2 hq
      have hnodir : ∀ es, fs.lookup (resolve (pathJoin [dest, e.Name])) ≠
          some (Node.dir es) := by
        intro es h
        rw [hPn] at h
        obtain ⟨P, hPS, hpre, _⟩ := hI3 r es hr h
        refine (hSe P hPS).1 ?_
        rw [hP]
        exact hpre
      obtain ⟨s3, hc⟩ := iteration_ok _ _ fs hdirEq hne hfiles hnodir
      rw [unzipLoop_file_run archives dest e rest fs s3 hd hc]
      refine ih _ (destPath dest e :: S) ?_ ?_ ?_ hsafeRest hpair0.2 ?_
      · intro q hq c hfile
        rcases iteration_file_origin _ _ _ fs s3 q c hc hfile with h | h
        · rw [h, hPn] at hq
          exact append_not_initial _ r hr hq
        · exact hI1 q hq c h
      · intro r1 c hr1 hfile
        rcases iteration_file_origin _ _ _ fs s3 _ c hc hfile with h | h
        · rw [h]
          exact List.mem_cons_self _ _
        · exact List.mem_cons_of_mem _ (hI2 r1 c hr1 h)
      · intro r1 es hr1 hdir
        rcases iteration_dir_origin _ _ _ fs s3 _ es hdirEq hne hc hdir with ⟨es0, h0⟩ | h
        · obtain ⟨P, hPS, hpre, hneq⟩ := hI3 r1 es0 hr1 h0
          exact ⟨P, List.mem_cons_of_mem _ hPS, hpre, hneq⟩
        · exact ⟨destPath dest e, List.mem_cons_self _ _, h.1, h.2⟩
      · intro e1 h1 hd1 P hPmem
        rcases List.mem_cons.mp hPmem with h | h
        · subst h
          have := hpair0.1 e1 (by simp [List.mem_filter, h1, hd1])
          exact ⟨this.2, this.1⟩
        · exact hS e1 (List.mem_cons_of_mem _ h1) hd1 P h

end GetCFpack
